import Mathlib

/-!
Verification of the Voidwind simulation layer against its specification.

Each Rust source function relevant to the checked properties is shallowly
embedded as a Lean definition.  Machine floats (`f32`) are modelled as exact
rationals (or reals where trigonometry is involved), machine integers as
`Int`/`Nat`, and RNG draws as explicit oracle parameters so that "for every
RNG state" becomes a universal quantifier.  Fallible code (array indexing
that can panic, `gen_bool` on an out-of-range probability, `WeightedIndex`
construction) returns `Option`, with `none` marking a Rust panic.
-/

namespace Voidwind

/-! ## Team (src/components.rs)

```rust
pub enum Team { English, French, Pirate, Neutral }
```
-/

inductive Team where
  | English
  | French
  | Pirate
  | Neutral
deriving DecidableEq, Repr, Fintype

namespace Team

/-- `Team::is_enemy`: Neutral is never an enemy; otherwise enemies iff distinct. -/
def is_enemy (self other : Team) : Bool :=
  if self = Team.Neutral ∨ other = Team.Neutral then false
  else decide (self ≠ other)

/-- `Team::trade_with`: Neutral trades with nobody; otherwise same team only. -/
def trade_with (self other : Team) : Bool :=
  if self = Team.Neutral ∨ other = Team.Neutral then false
  else decide (self = other)

/-- `Team::dock_with`: anyone docks with Neutral; otherwise same team only. -/
def dock_with (self other : Team) : Bool :=
  if self = Team.Neutral ∨ other = Team.Neutral then true
  else decide (self = other)

/-- `Team::can_damage`: damage allowed exactly between distinct teams. -/
def can_damage (self other : Team) : Bool :=
  decide (self ≠ other)

end Team

/-! ## Leveling curve (src/components.rs)

```rust
pub fn level_experience(level: i32) -> f32 { (level as f32).powf(3.) }

pub fn compute_level(&mut self) {
    let mut level = 1;
    while level_experience(level + 1) <= self.experience { level += 1; }
    self.level = level;
}
```

The `while` loop is modelled with an explicit fuel argument; the fuel
`⌈experience⌉.toNat + 1` is shown sufficient (`compute_level_go_stable`),
so `compute_level` computes the loop's actual limit value.
-/

def level_experience (level : ℤ) : ℚ := (level : ℚ) ^ 3

def compute_level_go (experience : ℚ) : ℕ → ℤ → ℤ
  | 0, level => level
  | fuel + 1, level =>
      if level_experience (level + 1) ≤ experience then
        compute_level_go experience fuel (level + 1)
      else level

def compute_level (experience : ℚ) : ℤ :=
  compute_level_go experience ((⌈experience⌉).toNat + 1) 1

theorem compute_level_go_le (x : ℚ) (f : ℕ) :
    ∀ l : ℤ, l ≤ compute_level_go x f l := by
  induction f with
  | zero => intro l; simp [compute_level_go]
  | succ f ih =>
      intro l
      simp only [compute_level_go]
      split
      · exact le_trans (by omega) (ih (l + 1))
      · exact le_refl l

theorem level_le_level_experience {l : ℤ} (h : 1 ≤ l) : (l : ℚ) ≤ level_experience l := by
  have hl : (1 : ℚ) ≤ (l : ℚ) := by exact_mod_cast h
  unfold level_experience
  nlinarith [hl, sq_nonneg ((l : ℚ) - 1), sq_nonneg (l : ℚ)]

theorem compute_level_go_exit (x : ℚ) (f : ℕ) :
    ∀ l : ℤ, 1 ≤ l → x < l + f →
      ¬ level_experience (compute_level_go x f l + 1) ≤ x := by
  induction f with
  | zero =>
      intro l hl hx hle
      simp only [compute_level_go] at hle
      have h1 : ((l + 1 : ℤ) : ℚ) ≤ level_experience (l + 1) :=
        level_le_level_experience (by omega)
      push_cast at h1 hx ⊢
      simp only [Nat.cast_zero, add_zero] at hx
      linarith
  | succ f ih =>
      intro l hl hx
      simp only [compute_level_go]
      split
      · exact ih (l + 1) (by omega) (by push_cast at hx ⊢; linarith)
      · intro hle
        rename_i hcond
        exact hcond hle

theorem compute_level_go_low (x : ℚ) (f : ℕ) :
    ∀ l : ℤ, level_experience (compute_level_go x f l) ≤ x ∨
      compute_level_go x f l = l := by
  induction f with
  | zero => intro l; right; rfl
  | succ f ih =>
      intro l
      simp only [compute_level_go]
      split
      · rcases ih (l + 1) with h | h
        · exact Or.inl h
        · left; rw [h]; assumption
      · right; rfl

theorem compute_level_go_mono (x y : ℚ) (hxy : x ≤ y) (f : ℕ) :
    ∀ l : ℤ, compute_level_go x f l ≤ compute_level_go y f l := by
  induction f with
  | zero => intro l; exact le_refl l
  | succ f ih =>
      intro l
      simp only [compute_level_go]
      by_cases hx : level_experience (l + 1) ≤ x
      · rw [if_pos hx, if_pos (le_trans hx hxy)]
        exact ih (l + 1)
      · rw [if_neg hx]
        split
        · exact le_trans (by omega) (compute_level_go_le y f (l + 1))
        · exact le_refl l

theorem compute_level_go_stuck (x : ℚ) (f : ℕ) :
    ∀ l : ℤ, 1 ≤ l → x < l → compute_level_go x f l = l := by
  induction f with
  | zero => intro l _ _; rfl
  | succ f _ =>
      intro l hl hx
      simp only [compute_level_go]
      rw [if_neg]
      intro hle
      have h1 : ((l + 1 : ℤ) : ℚ) ≤ level_experience (l + 1) :=
        level_le_level_experience (by omega)
      push_cast at h1 hx
      linarith

theorem compute_level_go_stable (x : ℚ) (f f' : ℕ) (hff : f ≤ f') :
    ∀ l : ℤ, 1 ≤ l → x < l + f →
      compute_level_go x f' l = compute_level_go x f l := by
  induction f generalizing f' with
  | zero =>
      intro l hl hx
      rw [compute_level_go_stuck x f' l hl (by push_cast at hx; simpa using hx)]
      rfl
  | succ f ih =>
      intro l hl hx
      obtain ⟨f₁, rfl⟩ : ∃ f₁, f' = f₁ + 1 := ⟨f' - 1, by omega⟩
      simp only [compute_level_go]
      split
      · exact ih f₁ (by omega) (l + 1) (by omega) (by push_cast at hx ⊢; linarith)
      · rfl

theorem ceil_fuel_sufficient (x : ℚ) : x < 1 + (((⌈x⌉).toNat + 1 : ℕ) : ℚ) := by
  have h1 : x ≤ (⌈x⌉ : ℚ) := Int.le_ceil x
  have h2 : (⌈x⌉ : ℚ) ≤ ((⌈x⌉.toNat : ℤ) : ℚ) := by
    have := Int.self_le_toNat ⌈x⌉
    exact_mod_cast this
  push_cast at h2 ⊢
  linarith

theorem compute_level_eq_go (x : ℚ) (F : ℕ) (hF : (⌈x⌉).toNat + 1 ≤ F) :
    compute_level x = compute_level_go x F 1 := by
  unfold compute_level
  rw [compute_level_go_stable x ((⌈x⌉).toNat + 1) F hF 1 (le_refl 1)]
  have := ceil_fuel_sufficient x
  push_cast at this ⊢
  linarith

/-! ## Economy tick (src/game.rs)

```rust
fn update_economy(economy: &mut [f32; 5], rng: &mut impl Rng) -> (usize, bool) {
    let idx = rng.gen_range(0..economy.len());
    let dir = *([-1., 1.].choose(rng).unwrap());
    economy[idx] *= (1.25_f32).powf(dir);
    let mut cur_sum = 0.;
    for e in economy.iter() { cur_sum += *e; }
    for e in economy.iter_mut() { *e *= 1000. / cur_sum; }
    (idx, dir > 0.)
}
```

The two RNG draws (`idx` and `dir`) are oracle parameters; arithmetic is exact.
-/

def update_economy (economy : Fin 5 → ℚ) (idx : Fin 5) (dirUp : Bool) :
    (Fin 5 → ℚ) × Fin 5 × Bool :=
  let factor : ℚ := (5 / 4 : ℚ) ^ (if dirUp then (1 : ℤ) else -1)
  let e1 : Fin 5 → ℚ := Function.update economy idx (economy idx * factor)
  let cur_sum : ℚ := ∑ i, e1 i
  let e2 : Fin 5 → ℚ := fun i => e1 i * (1000 / cur_sum)
  (e2, idx, dirUp)

/-! ## Officer generation (src/components.rs)

`generate_officer` draws: two weighted choices from `[0, 1]` (weights
`[10., 1.]`, both outcomes possible), a fair-coin tiebreak, and per-affix a
weighted kind (all weights in `OFFICER_PREFIX_WEIGHTS = [4,1,10,4]` and
`OFFICER_SUFFIX_WEIGHTS = [10,10,10,10,1,5]` are positive, so every kind is
possible), a tier uniform in `0..max_tier` and a continuous roll.  All draws
are oracle parameters; `gen_range(0..max_tier)` is modelled as `t % max_tier`
(with `max_tier ≥ 1`), which has exactly the source's support.
-/

inductive OfficerPrefix where
  | Rapid (tier : ℕ) (f : ℚ)
  | Speed (tier : ℕ) (f : ℚ)
  | Accurate (tier : ℕ) (f : ℚ)
  | Critical (tier : ℕ) (f : ℚ)
deriving Repr

inductive OfficerSuffix where
  | ArmorRepair (tier : ℕ) (f : ℚ)
  | HullRepair (tier : ℕ) (f : ℚ)
  | InfirmaryRepair (tier : ℕ) (f : ℚ)
  | SailRepair (tier : ℕ) (f : ℚ)
  | ItemProtect (tier : ℕ) (f : ℚ)
  | Medic (tier : ℕ) (f : ℚ)
deriving Repr

/-- `OfficerPrefix::name`; tiers `≥ 3` are `unreachable!()` in the source
(affix tiers are always drawn below `max_tier ≤ 3`), modelled as `""`. -/
def OfficerPrefix.name : OfficerPrefix → String
  | .Rapid tier _ =>
      if tier = 0 then "Wired " else if tier = 1 then "Coffeed "
      else if tier = 2 then "Quicksilvered " else ""
  | .Speed tier _ =>
      if tier = 0 then "Piloting " else if tier = 1 then "Navigational "
      else if tier = 2 then "Cartographic " else ""
  | .Accurate tier _ =>
      if tier = 0 then "Sparrow-eyed " else if tier = 1 then "Crow-eyed "
      else if tier = 2 then "Eagle-eyed " else ""
  | .Critical tier _ =>
      if tier = 0 then "Spectacled " else if tier = 1 then "Telescoped "
      else if tier = 2 then "Sectanted " else ""

/-- `OfficerSuffix::name`; tiers `≥ 3` are `unreachable!()` in the source,
modelled as `""`. -/
def OfficerSuffix.name : OfficerSuffix → String
  | .ArmorRepair tier _ =>
      if tier = 0 then ", Apprentice Armourer" else if tier = 1 then ", Junior Armourer"
      else if tier = 2 then ", Master Armourer" else ""
  | .HullRepair tier _ =>
      if tier = 0 then ", Woodworker" else if tier = 1 then ", Carpenter"
      else if tier = 2 then ", Artisan" else ""
  | .InfirmaryRepair tier _ =>
      if tier = 0 then " of the Leech" else if tier = 1 then " of the Serpent"
      else if tier = 2 then " of the Ambrosia" else ""
  | .SailRepair tier _ =>
      if tier = 0 then " of the Stitching" else if tier = 1 then " of the Fid"
      else if tier = 2 then " of the Sail" else ""
  | .ItemProtect tier _ =>
      if tier = 0 then ", Arranger" else if tier = 1 then ", Keeper"
      else if tier = 2 then ", Quartermaster" else ""
  | .Medic tier _ =>
      if tier = 0 then " of Mending" else if tier = 1 then " of Stiching"
      else if tier = 2 then " of Curing" else ""

structure Officer where
  name : String
  prefixes : List OfficerPrefix
  suffixes : List OfficerSuffix
  level : ℤ
deriving Repr

inductive Rarity where
  | Normal
  | Magic
  | Rare
deriving Repr, DecidableEq

inductive WeaponPrefix where
  | Rapid (tier : ℕ) (f : ℚ)
  | Swivel (tier : ℕ) (f : ℚ)
  | Fast (tier : ℕ) (f : ℚ)
  | Accurate (tier : ℕ) (f : ℚ)
  | CrewSelective (tier : ℕ) (f : ℚ)
  | SailSelective (tier : ℕ) (f : ℚ)
  | InfirmarySelective (tier : ℕ) (f : ℚ)
  | HullSelective (tier : ℕ) (f : ℚ)
  | Critical (tier : ℕ) (f : ℚ)
deriving Repr

inductive WeaponSuffix where
  | OfDamage (tier : ℕ) (f : ℚ)
  | OfCritMulti (tier : ℕ) (f : ℚ)
  | OfCrewSlaying (tier : ℕ) (f : ℚ)
  | OfSailSlaying (tier : ℕ) (f : ℚ)
  | OfItemSlaying (tier : ℕ) (f : ℚ)
  | OfArmorSlaying (tier : ℕ) (f : ℚ)
deriving Repr

structure Weapon where
  name : String
  rarity : Rarity
  prefixes : List WeaponPrefix
  suffixes : List WeaponSuffix
  readiness : ℚ
  time_to_fire : Option ℚ
  level : ℤ
deriving Repr

inductive ItemKind where
  | Weapon (weapon : Weapon)
  | Goods (level : ℤ)
  | Cotton (level : ℤ)
  | Tobacco (level : ℤ)
  | Officer (officer : Officer)
deriving Repr

structure Item where
  kind : ItemKind
  price : ℤ
deriving Repr

/-- The RNG draws consumed by one `generate_officer` call. -/
structure OfficerRolls where
  npRoll : Fin 2
  nsRoll : Fin 2
  tie : Bool
  prefixKind : ℕ → Fin 4
  prefixTier : ℕ → ℕ
  prefixF : ℕ → ℚ
  suffixKind : ℕ → Fin 6
  suffixTier : ℕ → ℕ
  suffixF : ℕ → ℚ

/-- `if level < 5 { 1 } else if level < 10 { 2 } else { 3 }` -/
def officer_max_tier (level : ℤ) : ℕ :=
  if level < 5 then 1 else if level < 10 then 2 else 3

def mk_officer_prefix (kind : Fin 4) (tier : ℕ) (f : ℚ) : OfficerPrefix :=
  match kind with
  | 0 => .Rapid tier f
  | 1 => .Speed tier f
  | 2 => .Accurate tier f
  | 3 => .Critical tier f

def mk_officer_suffix (kind : Fin 6) (tier : ℕ) (f : ℚ) : OfficerSuffix :=
  match kind with
  | 0 => .ArmorRepair tier f
  | 1 => .HullRepair tier f
  | 2 => .InfirmaryRepair tier f
  | 3 => .SailRepair tier f
  | 4 => .ItemProtect tier f
  | 5 => .Medic tier f

def generate_officer (level : ℤ) (rolls : OfficerRolls) : Item :=
  let np0 : ℕ := rolls.npRoll.val
  let ns0 : ℕ := rolls.nsRoll.val
  let counts : ℕ × ℕ :=
    if np0 = 0 ∧ ns0 = 0 then
      if rolls.tie then (1, ns0) else (np0, 1)
    else (np0, ns0)
  let max_tier := officer_max_tier level
  let prefixes : List OfficerPrefix :=
    (List.range counts.1).map fun i =>
      mk_officer_prefix (rolls.prefixKind i) (rolls.prefixTier i % max_tier) (rolls.prefixF i)
  let suffixes : List OfficerSuffix :=
    (List.range counts.2).map fun i =>
      mk_officer_suffix (rolls.suffixKind i) (rolls.suffixTier i % max_tier) (rolls.suffixF i)
  let pname : String :=
    match prefixes.head? with
    | some a => a.name
    | none => ""
  let sname : String :=
    match suffixes.head? with
    | some a => a.name
    | none => ""
  { kind := ItemKind.Officer
      { name := pname ++ "Officer" ++ sname
        prefixes := prefixes
        suffixes := suffixes
        level := level }
    price := 10 }

/-! ## Ship state (src/components.rs)

`f32` resources are modelled as `ℚ`, `i32` counters as `ℤ`, the armor array
as `Fin 4 → ℚ` (front, right, back, left), entity handles as `ℕ`.
-/

structure ShipStats where
  hull : ℚ
  crew : ℤ
  sails : ℚ
  infirmary : ℚ
  armor : Fin 4 → ℚ
  speed : ℚ
  dir_speed : ℚ

structure ShipState where
  hull : ℚ
  crew : ℤ
  wounded : ℤ
  experience : ℚ
  level : ℤ
  team : Team
  sails : ℚ
  infirmary : ℚ
  armor : Fin 4 → ℚ
  repair_boost : List ℕ
  time_to_board : ℚ

namespace ShipState

/-- `ShipState::is_structurally_sound`: `hull > 0`. -/
def is_structurally_sound (s : ShipState) : Bool := decide (0 < s.hull)

/-- `ShipState::has_crew`: `crew > 0`. -/
def has_crew (s : ShipState) : Bool := decide (0 < s.crew)

/-- `ShipState::is_active`: structurally sound and has crew. -/
def is_active (s : ShipState) : Bool := s.is_structurally_sound && s.has_crew

end ShipState

/-! ## Ship-death pass (src/game.rs, `Map::logic`)

```rust
let mut remove_ai = vec![];
for (id, (target, ship_state)) in world.query_mut::<(&mut Target, &mut ShipState)>() {
    if !ship_state.is_active() && ship_state.team != Team::Neutral {
        if id == self.player { self.messages.push(("You've been defeated!", time)); }
        target.clear(|m| to_die.push(m));
        ship_state.team = Team::Neutral;
        ship_state.crew = 0;
        ship_state.wounded = 0;
        remove_ai.push(id);
    }
}
for id in remove_ai {
    world.remove_one::<AI>(id).ok();
    if let Ok(mut equipment) = world.get::<&mut Equipment>(id) {
        equipment.want_attack = false;
    }
}
```

The world is modelled as the list of entities carrying both `Target` and
`ShipState` (exactly the entities this pass queries), together with the
`to_die` and `messages` accumulators.
-/

structure Waypoint where
  pos : ℚ × ℚ × ℚ
  marker : Option ℕ

structure Target where
  waypoints : List Waypoint

/-- The markers `Target::clear` hands to its `to_die_fn`, in order. -/
def Target.clear_markers (t : Target) : List ℕ :=
  t.waypoints.filterMap (fun w => w.marker)

inductive AIState where
  | Idle
  | Pursuing (e : ℕ)
  | Attacking (e : ℕ)
  | Pause (time_to_unpause : ℚ)

structure AI where
  state : AIState
  name : String

/-- The one `Equipment` field this pass writes (the full component also
carries the slot list, which the pass leaves untouched). -/
structure Equipment where
  want_attack : Bool

structure DeathShip where
  id : ℕ
  target : Target
  ship_state : ShipState
  ai : Option AI
  equipment : Option Equipment

structure DeathPassState where
  ships : List DeathShip
  to_die : List ℕ
  messages : List (String × ℚ)

/-- The pass's per-entity guard: `!is_active() && team != Neutral`. -/
def death_trigger (s : DeathShip) : Bool :=
  !s.ship_state.is_active && decide (s.ship_state.team ≠ Team.Neutral)

/-- First loop, per-entity state mutation. -/
def death_update (s : DeathShip) : DeathShip :=
  if death_trigger s then
    { s with
      target := ⟨[]⟩
      ship_state :=
        { s.ship_state with team := Team.Neutral, crew := 0, wounded := 0 } }
  else s

/-- Second loop: remove the `AI` component and clear `want_attack` for each
collected id. -/
def remove_ai_update (remove : List ℕ) (s : DeathShip) : DeathShip :=
  if s.id ∈ remove then
    { s with ai := none, equipment := s.equipment.map fun _ => ⟨false⟩ }
  else s

-- Source text: "You've been defeated!".
def defeat_message : String := "You have been defeated!"

def ship_death_pass (player : ℕ) (time : ℚ) (st : DeathPassState) : DeathPassState :=
  let triggered := st.ships.filter death_trigger
  let remove_ai := triggered.map (fun s => s.id)
  { ships := st.ships.map fun s => remove_ai_update remove_ai (death_update s)
    to_die := st.to_die ++ triggered.flatMap (fun s => s.target.clear_markers)
    messages := st.messages ++
      (triggered.filter (fun s => s.id = player)).map (fun _ => (defeat_message, time)) }

theorem ship_death_pass_ships_length (player : ℕ) (time : ℚ) (st : DeathPassState) :
    (ship_death_pass player time st).ships.length = st.ships.length := by
  simp [ship_death_pass]

/-! ## Damage resolution (src/components.rs, `ShipState::damage`)

RNG draws are oracle parameters.  `rand`'s `gen_bool(p)` asserts
`0 ≤ p ≤ 1` (panicking otherwise, including on NaN), never returns `true`
at `p = 0` nor `false` at `p = 1`.  `WeightedIndex::new` errors (and the
source `unwrap`s) on a negative weight, and sampling never yields an index
whose weight is zero.  The `f32` arithmetic is modelled exactly over `ℚ`,
except the impact-angle trigonometry, which lives in `ℝ`.
-/

structure WeaponStats where
  fire_interval : ℚ
  speed : ℚ
  arc : ℚ
  spread : ℚ
  damage : ℚ
  critical_chance : ℚ
  critical_multiplier : ℚ
  armor_damage : ℚ
  sail_damage : ℚ
  crew_damage : ℚ
  item_chance : ℚ
  hull_weight : ℚ
  sail_weight : ℚ
  crew_weight : ℚ
  infirmary_weight : ℚ

structure Damage where
  weapon_stats : WeaponStats
  team : Team

structure DamageReport where
  damaged : Bool
  item_destroy_chance : ℚ
  crit : Bool

/-- `rng.gen_bool(p)`: `none` models the panic on `p ∉ [0, 1]`; the draw is
forced at the endpoints and is the oracle's bit otherwise. -/
def gen_bool (p : ℚ) (roll : Bool) : Option Bool :=
  if 0 ≤ p ∧ p ≤ 1 then
    some (if p = 0 then false else if p = 1 then true else roll)
  else none

/-- `WeightedIndex::new([2., w1, w2]).unwrap().sample(rng)`: `none` models the
`unwrap` panic on a negative weight (the total is positive since the first
weight is 2); a draw naming a zero-weight index cannot occur and is redirected
to index 0, which always has positive weight. -/
def sample_weighted3 (w1 w2 : ℚ) (choice : Fin 3) : Option (Fin 3) :=
  if 0 ≤ w1 ∧ 0 ≤ w2 then
    some (if choice = 1 ∧ w1 = 0 then 0 else if choice = 2 ∧ w2 = 0 then 0 else choice)
  else none

/-- The number of `true` draws among `k` `gen_bool(0.9)` rolls (the wounded
loop; `0.9` is strictly inside `(0,1)` so every outcome is possible); a
non-positive `k` runs zero iterations, as does Rust's `0..k` on `k ≤ 0`. -/
def count_true (wound : ℕ → Bool) (k : ℤ) : ℤ :=
  (((List.range k.toNat).filter wound).length : ℤ)

/-- Rust `f32::round`: round half away from zero. -/
noncomputable def rust_round (x : ℝ) : ℤ :=
  if 0 ≤ x then ⌊x + 1 / 2⌋ else ⌈x - 1 / 2⌉

/-- Rust `f32::atan2`: `y.atan2(x)` with range `(-π, π]`, which is exactly
`Complex.arg ⟨x, y⟩` (negative zero does not exist over `ℝ`). -/
noncomputable def atan2 (y x : ℝ) : ℝ := Complex.arg ⟨x, y⟩

/-- The armor-segment index of `ShipState::damage`:

```rust
let dir = dir.zx().normalize();
let armor_segment = ((4. * (PI + dir.y.atan2(-dir.x)) / (2. * PI)) - 0.5).round() as usize;
```

`dir.zx()` is the 2-vector `(z, x)` of the impact direction, so the atan2
arguments are `x/n` and `-(z/n)`.  When the horizontal projection is zero,
`normalize` produces NaN, which propagates and casts (`as usize`) to 0;
otherwise `as usize` saturates negatives to 0, modelled by `Int.toNat`. -/
noncomputable def armor_segment (dirx dirz : ℝ) : ℕ :=
  let n := Real.sqrt (dirz ^ 2 + dirx ^ 2)
  if n = 0 then 0
  else
    (rust_round (4 * (Real.pi + atan2 (dirx / n) (-(dirz / n))) / (2 * Real.pi)
      - 1 / 2)).toNat

/-- The RNG draws consumed by one `ShipState::damage` call. -/
structure DamageRolls where
  crit : Bool
  sails_hit : Bool
  internal : Fin 3
  wound : ℕ → Bool

/-- The hull branch of `ShipState::damage` (armor, bleed-through, internal
systems); `none` models the `armor[4]` out-of-bounds panic and the
`WeightedIndex` unwrap panic.  The `0.1 * armor / base_damage` quotient at
`base_damage = 0` is `∞` in f32 (or NaN at `armor = 0`, and
`f32::min(NaN, 1.) = 1.`), so the min is 1 and the bleed fraction 0. -/
noncomputable def hull_hit (self : ShipState) (ws : WeaponStats) (dirx dirz : ℝ)
    (rolls : DamageRolls) (base_damage : ℚ) (crit : Bool) :
    Option (ShipState × DamageReport) :=
  let seg := armor_segment dirx dirz
  if hseg : seg < 4 then
    let i : Fin 4 := ⟨seg, hseg⟩
    let armor2 := max (self.armor i - ws.armor_damage * base_damage) 0
    let bleed_frac : ℚ :=
      if base_damage = 0 then 0 else 1 - min (1 / 10 * armor2 / base_damage) 1
    let item_destroy_chance := 1 / 100 * bleed_frac * ws.item_chance
    let bleed_through := base_damage * bleed_frac
    let self2 :=
      { self with
        armor := Function.update self.armor i armor2
        hull := max (self.hull - bleed_through) 0 }
    match sample_weighted3 ws.crew_weight ws.infirmary_weight rolls.internal with
    | none => none
    | some c =>
        let self3 :=
          if c = 0 then self2
          else if c = 1 then
            let crew_damage : ℤ := ⌈ws.crew_damage * bleed_through / 2⌉
            let crew2 := max (self2.crew - crew_damage) 0
            { self2 with
              crew := crew2
              wounded := self2.wounded + count_true rolls.wound (self2.crew - crew2) }
          else { self2 with infirmary := max (self2.infirmary - bleed_through) 0 }
        some (self3,
          { damaged := true, item_destroy_chance := item_destroy_chance, crit := crit })
  else none

/-- `ShipState::damage`.  `dir` is the 3-D impact direction `(x, y, z)`. -/
noncomputable def ShipState.damage (self : ShipState) (dmg : Damage)
    (dir : ℝ × ℝ × ℝ) (rolls : DamageRolls) : Option (ShipState × DamageReport) :=
  if dmg.team.can_damage self.team = true then
    let ws := dmg.weapon_stats
    match gen_bool ws.critical_chance rolls.crit with
    | none => none
    | some crit =>
        let base_damage := if crit then ws.damage * (1 + ws.critical_multiplier) else ws.damage
        -- `sail_weight / (sail_weight + hull_weight)`: a zero f32 denominator
        -- yields NaN or ∞ and `gen_bool` panics on it
        if ws.sail_weight + ws.hull_weight = 0 then none
        else
          match gen_bool (ws.sail_weight / (ws.sail_weight + ws.hull_weight))
              rolls.sails_hit with
          | none => none
          | some sails_hit =>
              if sails_hit then
                some
                  ({ self with
                      sails := max (self.sails - ws.sail_damage * base_damage / 2) 0 },
                    { damaged := true, item_destroy_chance := 0, crit := crit })
              else hull_hit self ws dir.1 dir.2.2 rolls base_damage crit
  else some (self, { damaged := false, item_destroy_chance := 0, crit := false })

end Voidwind

/-- C6: after `update_economy`, the five commodity indices sum to exactly 1000
in exact arithmetic, for every initial positive economy, perturbed index and
direction. -/
theorem c6_update_economy_sum (economy : Fin 5 → ℚ) (idx : Fin 5) (dirUp : Bool)
    (hpos : ∀ i, 0 < economy i) :
    (∑ i, (Voidwind.update_economy economy idx dirUp).1 i) = 1000 := by
  unfold Voidwind.update_economy
  set factor : ℚ := (5 / 4 : ℚ) ^ (if dirUp then (1 : ℤ) else -1) with hfactor
  have hfpos : 0 < factor := by
    rw [hfactor]; split <;> norm_num
  set e1 : Fin 5 → ℚ := Function.update economy idx (economy idx * factor) with he1
  have he1pos : ∀ i, 0 < e1 i := by
    intro i
    rw [he1, Function.update_apply]
    split
    · exact mul_pos (hpos idx) hfpos
    · exact hpos i
  have hsum : 0 < ∑ i, e1 i := Finset.sum_pos (fun i _ => he1pos i) ⟨0, Finset.mem_univ 0⟩
  simp only
  rw [← Finset.sum_mul]
  field_simp

/-- C6 witness: `c6_update_economy_sum` at a concrete economy. -/
theorem c6_update_economy_witness :
    (∀ i : Fin 5, 0 < (fun _ : Fin 5 => (200 : ℚ)) i) ∧
      (∑ i, (Voidwind.update_economy (fun _ => 200) 0 true).1 i) = 1000 :=
  ⟨fun _ => by norm_num, c6_update_economy_sum (fun _ => 200) 0 true (fun _ => by norm_num)⟩

/-- C10: `generate_officer` always produces an Officer item with at least one
affix: at most one prefix, at most one suffix, and at least one of the two. -/
theorem c10_generate_officer_affixes (level : ℤ) (rolls : Voidwind.OfficerRolls) :
    ∃ o : Voidwind.Officer,
      (Voidwind.generate_officer level rolls).kind = Voidwind.ItemKind.Officer o ∧
      1 ≤ o.prefixes.length + o.suffixes.length ∧
      o.prefixes.length ≤ 1 ∧ o.suffixes.length ≤ 1 := by
  refine ⟨_, rfl, ?_, ?_, ?_⟩ <;>
  · simp only [Voidwind.generate_officer, List.length_map, List.length_range]
    rcases rolls with ⟨⟨np, hnp⟩, ⟨ns, hns⟩, tie, _, _, _, _, _, _⟩
    dsimp only
    split
    · split <;> omega
    · rename_i h
      simp only [not_and_or] at h
      omega

/-- C7 counterexample: the claim asserts `level_experience (compute_level x) ≤ x`
for every experience `x ≥ 0`, but at `x = 0` the computed level is `1` and
`level_experience 1 = 1 > 0`. -/
theorem c7_counterexample :
    (0 : ℚ) ≤ 0 ∧ Voidwind.compute_level 0 = 1 ∧
      ¬ Voidwind.level_experience (Voidwind.compute_level 0) ≤ 0 := by
  refine ⟨le_refl 0, by decide, by decide⟩

/-- C7 amended: `compute_level` is monotone non-decreasing in experience; for
every `x ≥ 0` the computed level `L ≥ 1` satisfies `x < level_experience (L+1)`,
and the lower bound `level_experience L ≤ x` holds whenever `x ≥ 1` (for
`0 ≤ x < 1` the loop never runs, `L = 1`, and `level_experience 1 = 1 > x`). -/
theorem c7_compute_level_amended (x y : ℚ) (hx : 0 ≤ x) (hxy : x ≤ y) :
    Voidwind.compute_level x ≤ Voidwind.compute_level y ∧
    1 ≤ Voidwind.compute_level x ∧
    x < Voidwind.level_experience (Voidwind.compute_level x + 1) ∧
    (1 ≤ x → Voidwind.level_experience (Voidwind.compute_level x) ≤ x) := by
  refine ⟨?_, ?_, ?_, ?_⟩
  · have hceil : ⌈x⌉ ≤ ⌈y⌉ := Int.ceil_le_ceil hxy
    set F := max ((⌈x⌉).toNat + 1) ((⌈y⌉).toNat + 1) with hF
    rw [Voidwind.compute_level_eq_go x F (le_max_left _ _),
        Voidwind.compute_level_eq_go y F (le_max_right _ _)]
    exact Voidwind.compute_level_go_mono x y hxy F 1
  · exact Voidwind.compute_level_go_le x _ 1
  · have := Voidwind.compute_level_go_exit x ((⌈x⌉).toNat + 1) 1 (le_refl 1)
      (by have := Voidwind.ceil_fuel_sufficient x; push_cast at this ⊢; linarith)
    unfold Voidwind.compute_level
    exact lt_of_not_le this
  · intro h1
    rcases Voidwind.compute_level_go_low x ((⌈x⌉).toNat + 1) 1 with h | h
    · exact h
    · unfold Voidwind.compute_level
      rw [h]
      simpa [Voidwind.level_experience] using h1

/-- C7 witness: the amended theorem applied at `x = 2`, `y = 9`. -/
theorem c7_compute_level_witness :
    (0 : ℚ) ≤ 2 ∧ (2 : ℚ) ≤ 9 ∧
      (Voidwind.compute_level 2 ≤ Voidwind.compute_level 9 ∧
        1 ≤ Voidwind.compute_level 2 ∧
        (2 : ℚ) < Voidwind.level_experience (Voidwind.compute_level 2 + 1) ∧
        ((1 : ℚ) ≤ 2 → Voidwind.level_experience (Voidwind.compute_level 2) ≤ 2)) :=
  ⟨by norm_num, by norm_num,
    c7_compute_level_amended 2 9 (by norm_num) (by norm_num)⟩

/-- C8: team relations are as specified: `is_enemy` is symmetric, Neutral is
never an enemy of anyone, and `can_damage a b` holds exactly when `a ≠ b`. -/
theorem c8_team_relations (a b : Voidwind.Team) :
    a.is_enemy b = b.is_enemy a ∧
    Voidwind.Team.Neutral.is_enemy b = false ∧
    (a.can_damage b = true ↔ a ≠ b) := by
  revert a b; decide

/-- C9 counterexample: the claim asserts that after the ship-death pass every
`(Target, ShipState)` entity with `is_active() == false` has `wounded 0`, an
empty waypoint queue and no AI component; but an inactive ship whose team is
already Neutral is skipped by the pass and keeps its wounded count, waypoints
and AI. -/
theorem c9_counterexample :
    (Voidwind.ship_death_pass 0 0
        ⟨[⟨7, ⟨[⟨(0, 0, 0), some 42⟩]⟩,
            ⟨1, 0, 3, 0, 1, Voidwind.Team.Neutral, 0, 0, fun _ => 0, [], 0⟩,
            some ⟨Voidwind.AIState.Idle, ""⟩, none⟩], [], []⟩).ships.map
        (fun s => (s.ship_state.is_active, s.ship_state.wounded,
                   s.target.waypoints.length, s.ai.isSome))
      = [(false, 3, 1, true)] := by
  decide

/-- C9 amended: after the ship-death pass, every queried entity that was
inactive with a non-Neutral team has team Neutral, crew 0, wounded 0, an empty
waypoint queue with all former markers queued for despawn, and its AI removed;
entities that do not trigger (active, or already Neutral) keep their
`ShipState` and `Target` unchanged; and no entity of the resulting world
triggers the pass again (the transition happens exactly once per
deactivation). -/
theorem c9_ship_death_pass_amended (player : ℕ) (time : ℚ)
    (st : Voidwind.DeathPassState) (i : ℕ) (hi : i < st.ships.length) :
    ∃ hi2 : i < (Voidwind.ship_death_pass player time st).ships.length,
      (Voidwind.death_trigger (st.ships.get ⟨i, hi⟩) = true →
        ((Voidwind.ship_death_pass player time st).ships.get
            ⟨i, hi2⟩).ship_state.team = Voidwind.Team.Neutral ∧
        ((Voidwind.ship_death_pass player time st).ships.get
            ⟨i, hi2⟩).ship_state.crew = 0 ∧
        ((Voidwind.ship_death_pass player time st).ships.get
            ⟨i, hi2⟩).ship_state.wounded = 0 ∧
        ((Voidwind.ship_death_pass player time st).ships.get
            ⟨i, hi2⟩).target.waypoints = [] ∧
        ((Voidwind.ship_death_pass player time st).ships.get ⟨i, hi2⟩).ai = none ∧
        ∀ m ∈ (st.ships.get ⟨i, hi⟩).target.clear_markers,
          m ∈ (Voidwind.ship_death_pass player time st).to_die) ∧
      (Voidwind.death_trigger (st.ships.get ⟨i, hi⟩) = false →
        ((Voidwind.ship_death_pass player time st).ships.get
            ⟨i, hi2⟩).ship_state = (st.ships.get ⟨i, hi⟩).ship_state ∧
        ((Voidwind.ship_death_pass player time st).ships.get
            ⟨i, hi2⟩).target = (st.ships.get ⟨i, hi⟩).target) ∧
      Voidwind.death_trigger
        ((Voidwind.ship_death_pass player time st).ships.get ⟨i, hi2⟩) = false := by
  have hi2 : i < (Voidwind.ship_death_pass player time st).ships.length := by
    rw [Voidwind.ship_death_pass_ships_length]; exact hi
  refine ⟨hi2, ?_⟩
  set s := st.ships.get ⟨i, hi⟩ with hs
  have hmem : s ∈ st.ships := by rw [hs]; exact List.get_mem _ i hi
  have key : (Voidwind.ship_death_pass player time st).ships.get ⟨i, hi2⟩ =
      Voidwind.remove_ai_update
        ((st.ships.filter Voidwind.death_trigger).map (fun s => s.id))
        (Voidwind.death_update s) := by
    simp only [Voidwind.ship_death_pass, List.get_eq_getElem, List.getElem_map, hs]
  rw [key]
  by_cases htrig : Voidwind.death_trigger s = true
  · have hfil : s ∈ st.ships.filter Voidwind.death_trigger :=
      List.mem_filter.mpr ⟨hmem, htrig⟩
    have hid : s.id ∈ (st.ships.filter Voidwind.death_trigger).map (fun s => s.id) :=
      List.mem_map.mpr ⟨s, hfil, rfl⟩
    have hdu : Voidwind.death_update s =
        { s with
          target := ⟨[]⟩
          ship_state :=
            { s.ship_state with team := Voidwind.Team.Neutral, crew := 0, wounded := 0 } } := by
      rw [Voidwind.death_update, if_pos htrig]
    refine ⟨fun _ => ?_, fun hfalse => absurd htrig (by rw [hfalse]; decide), ?_⟩
    · rw [hdu, Voidwind.remove_ai_update, if_pos hid]
      refine ⟨rfl, rfl, rfl, rfl, rfl, fun m hm => ?_⟩
      simp only [Voidwind.ship_death_pass, List.mem_append]
      right
      exact List.mem_flatMap.mpr ⟨s, hfil, hm⟩
    · rw [hdu, Voidwind.remove_ai_update, if_pos hid]
      simp [Voidwind.death_trigger]
  · have htrig2 : Voidwind.death_trigger s = false := by
      revert htrig; cases Voidwind.death_trigger s <;> simp
    have hdu : Voidwind.death_update s = s := by
      rw [Voidwind.death_update, if_neg (by rw [htrig2]; simp)]
    have hstate : ∀ r,
        (Voidwind.remove_ai_update r s).ship_state = s.ship_state ∧
        (Voidwind.remove_ai_update r s).target = s.target := by
      intro r
      rw [Voidwind.remove_ai_update]
      split <;> exact ⟨rfl, rfl⟩
    refine ⟨fun habs => absurd habs (by rw [htrig2]; simp), fun _ => by rw [hdu]; exact hstate _, ?_⟩
    rw [hdu]
    have := hstate ((st.ships.filter Voidwind.death_trigger).map (fun s => s.id))
    rw [Voidwind.death_trigger, this.1]
    rw [Voidwind.death_trigger] at htrig2
    exact htrig2

/-- C9 witness: the amended theorem applied to a world with a single inactive
English ship (crew 0, hull 1). -/
theorem c9_ship_death_pass_witness :
    (0 < (Voidwind.DeathPassState.mk
      [⟨3, ⟨[⟨(0, 0, 0), some 11⟩]⟩,
        ⟨1, 0, 2, 0, 1, Voidwind.Team.English, 0, 0, fun _ => 0, [], 0⟩,
        some ⟨Voidwind.AIState.Idle, ""⟩, none⟩] [] []).ships.length) ∧
    (∃ hi2 : 0 < (Voidwind.ship_death_pass 0 0 (Voidwind.DeathPassState.mk
      [⟨3, ⟨[⟨(0, 0, 0), some 11⟩]⟩,
        ⟨1, 0, 2, 0, 1, Voidwind.Team.English, 0, 0, fun _ => 0, [], 0⟩,
        some ⟨Voidwind.AIState.Idle, ""⟩, none⟩] [] [])).ships.length, True) := by
  constructor
  · decide
  · obtain ⟨hi2, -⟩ := c9_ship_death_pass_amended 0 0 (Voidwind.DeathPassState.mk
      [⟨3, ⟨[⟨(0, 0, 0), some 11⟩]⟩,
        ⟨1, 0, 2, 0, 1, Voidwind.Team.English, 0, 0, fun _ => 0, [], 0⟩,
        some ⟨Voidwind.AIState.Idle, ""⟩, none⟩] [] []) 0 (by decide)
    exact ⟨hi2, trivial⟩

namespace Voidwind

theorem clamp_bounds {α : Type*} [LinearOrderedRing α] {a b d : α}
    (ha : a ≤ b) (hb : 0 ≤ b) (hd : 0 ≤ d) :
    0 ≤ max (a - d) 0 ∧ max (a - d) 0 ≤ b :=
  ⟨le_max_right _ 0, max_le (le_trans (sub_le_self a hd) ha) hb⟩

theorem bleed_frac_bounds {base armor2 : ℚ} (hb : 0 ≤ base) (ha : 0 ≤ armor2) :
    0 ≤ (if base = 0 then 0 else 1 - min (1 / 10 * armor2 / base) 1) ∧
      (if base = 0 then 0 else 1 - min (1 / 10 * armor2 / base) 1) ≤ 1 := by
  split
  · exact ⟨le_refl 0, by norm_num⟩
  · rename_i hne
    have hpos : 0 < base := lt_of_le_of_ne hb (Ne.symm hne)
    have h0 : 0 ≤ 1 / 10 * armor2 / base := by positivity
    constructor
    · have : min (1 / 10 * armor2 / base) 1 ≤ 1 := min_le_right _ _
      linarith
    · have : 0 ≤ min (1 / 10 * armor2 / base) 1 := le_min h0 (by norm_num)
      linarith

theorem hull_hit_damaged (self : ShipState) (ws : WeaponStats) (dirx dirz : ℝ)
    (rolls : DamageRolls) (base : ℚ) (crit : Bool) (s2 : ShipState)
    (rep : DamageReport) (h : hull_hit self ws dirx dirz rolls base crit = some (s2, rep)) :
    rep.damaged = true := by
  simp only [hull_hit] at h
  split at h
  · split at h
    · exact absurd h (by simp)
    · rw [Option.some_inj] at h
      obtain ⟨-, rfl⟩ := Prod.mk.injEq .. ▸ h
      rfl
  · exact absurd h (by simp)

theorem hull_hit_clamped (stats : ShipStats) (self : ShipState) (ws : WeaponStats)
    (dirx dirz : ℝ) (rolls : DamageRolls) (base : ℚ) (crit : Bool)
    (s2 : ShipState) (rep : DamageReport)
    (hhull : 0 ≤ self.hull ∧ self.hull ≤ stats.hull)
    (hcrew : 0 ≤ self.crew ∧ self.crew ≤ stats.crew)
    (hsails : 0 ≤ self.sails ∧ self.sails ≤ stats.sails)
    (hinf : 0 ≤ self.infirmary ∧ self.infirmary ≤ stats.infirmary)
    (harmor : ∀ i, 0 ≤ self.armor i ∧ self.armor i ≤ stats.armor i)
    (had : 0 ≤ ws.armor_damage) (hcd : 0 ≤ ws.crew_damage) (hbase : 0 ≤ base)
    (h : hull_hit self ws dirx dirz rolls base crit = some (s2, rep)) :
    (0 ≤ s2.hull ∧ s2.hull ≤ stats.hull) ∧
    (0 ≤ s2.crew ∧ s2.crew ≤ stats.crew) ∧
    (0 ≤ s2.sails ∧ s2.sails ≤ stats.sails) ∧
    (0 ≤ s2.infirmary ∧ s2.infirmary ≤ stats.infirmary) ∧
    (∀ i, 0 ≤ s2.armor i ∧ s2.armor i ≤ stats.armor i) := by
  simp only [hull_hit] at h
  split at h
  case isTrue hseg =>
    set i : Fin 4 := ⟨armor_segment dirx dirz, hseg⟩ with hidef
    have harmor2 := clamp_bounds (harmor i).2 (le_trans (harmor i).1 (harmor i).2)
      (mul_nonneg had hbase)
    have hfrac := bleed_frac_bounds hbase
      (le_max_right (self.armor i - ws.armor_damage * base) 0)
    have hbleed : 0 ≤ base *
        (if base = 0 then 0
          else 1 - min (1 / 10 * max (self.armor i - ws.armor_damage * base) 0 / base) 1) :=
      mul_nonneg hbase hfrac.1
    have harmorfun : ∀ j : Fin 4,
        0 ≤ Function.update self.armor i
            (max (self.armor i - ws.armor_damage * base) 0) j ∧
          Function.update self.armor i
            (max (self.armor i - ws.armor_damage * base) 0) j ≤ stats.armor j := by
      intro j
      rw [Function.update_apply]
      split
      · rename_i hji; subst hji; exact harmor2
      · exact harmor j
    have hhull2 := clamp_bounds hhull.2 (le_trans hhull.1 hhull.2) hbleed
    split at h
    · exact absurd h (by simp)
    · rename_i c
      rw [Option.some_inj] at h
      obtain ⟨h1, -⟩ := Prod.mk.injEq .. ▸ h
      subst h1
      split
      · exact ⟨hhull2, hcrew, hsails, hinf, harmorfun⟩
      · split
        · have hcdmg : (0 : ℤ) ≤ ⌈ws.crew_damage * (base *
              (if base = 0 then 0
                else 1 - min (1 / 10 * max (self.armor i - ws.armor_damage * base) 0 / base) 1))
                / 2⌉ :=
            Int.ceil_nonneg (by positivity)
          exact ⟨hhull2, clamp_bounds hcrew.2
              (le_trans hcrew.1 hcrew.2) hcdmg, hsails, hinf, harmorfun⟩
        · exact ⟨hhull2, hcrew, hsails,
            clamp_bounds hinf.2 (le_trans hinf.1 hinf.2) hbleed, harmorfun⟩
  case isFalse => exact absurd h (by simp)

end Voidwind

theorem Voidwind.atan2_zero_neg_one : Voidwind.atan2 0 (-1) = Real.pi := by
  unfold Voidwind.atan2
  have h : (⟨-1, 0⟩ : ℂ) = (-1 : ℂ) := by
    apply Complex.ext <;> simp
  rw [h, Complex.arg_neg_one]

/-- At an impact direction with `x = 0` and `z = 1`, `atan2` returns exactly
`π` and the segment expression evaluates to `round(3.5) = 4`. -/
theorem Voidwind.armor_segment_bug : Voidwind.armor_segment 0 1 = 4 := by
  simp only [Voidwind.armor_segment]
  have h1 : ((1 : ℝ) ^ 2 + 0 ^ 2) = 1 := by norm_num
  rw [h1, Real.sqrt_one, if_neg (by norm_num)]
  have h2 : ((0 : ℝ) / 1) = 0 := by norm_num
  have h3 : (-((1 : ℝ) / 1)) = -1 := by norm_num
  rw [h2, h3, Voidwind.atan2_zero_neg_one]
  have h4 : 4 * (Real.pi + Real.pi) / (2 * Real.pi) - 1 / 2 = (7 : ℝ) / 2 := by
    have hpi := Real.pi_ne_zero
    field_simp
    ring
  rw [h4]
  simp only [Voidwind.rust_round, if_pos (by norm_num : (0 : ℝ) ≤ 7 / 2)]
  have h5 : (7 : ℝ) / 2 + 1 / 2 = 4 := by norm_num
  rw [h5]
  norm_num
  decide

/-- C3: the armor-segment index is NOT always in `{0,1,2,3}`: for the non-zero
impact direction `(0, 0, 1)` the index evaluates to `4`, and on a hull hit the
source indexes `armor[4]` on the 4-element armor array and panics (modelled as
`none`).  The spec's intent (4 quadrants) is clear; the code slips at the
boundary angle `atan2 = π`, where `round(3.5) = 4`. -/
theorem c3_armor_segment_out_of_bounds :
    Voidwind.armor_segment 0 1 = 4 ∧
    Voidwind.armor_segment 0 1 ∉ ({0, 1, 2, 3} : Set ℕ) ∧
    Voidwind.ShipState.damage
      ⟨10, 5, 0, 0, 1, Voidwind.Team.English, 10, 10, fun _ => 10, [], 0⟩
      ⟨⟨0, 0, 0, 0, 1, 0, 0, 0, 1, 0, 0, 1, 1, 0, 0⟩, Voidwind.Team.French⟩
      (0, 0, 1) ⟨false, false, 0, fun _ => false⟩ = none := by
  refine ⟨Voidwind.armor_segment_bug, ?_, ?_⟩
  · rw [Voidwind.armor_segment_bug]
    norm_num
  · simp only [Voidwind.ShipState.damage, Voidwind.Team.can_damage, Voidwind.gen_bool,
      Voidwind.hull_hit, Voidwind.armor_segment_bug]
    norm_num
    exact fun h => absurd h (by decide)

/-- C2 counterexample: when `can_damage` is true the call does not always
return a `damaged == true` report: a weapon whose `critical_chance` is above 1
makes `rng.gen_bool` panic (modelled as `none`), so no report is returned at
all. -/
theorem c2_counterexample :
    Voidwind.Team.can_damage Voidwind.Team.French Voidwind.Team.English = true ∧
    Voidwind.ShipState.damage
      ⟨10, 5, 0, 0, 1, Voidwind.Team.English, 10, 10, fun _ => 10, [], 0⟩
      ⟨⟨0, 0, 0, 0, 1, 2, 0, 0, 0, 0, 0, 1, 1, 0, 0⟩, Voidwind.Team.French⟩
      (1, 0, 0) ⟨false, false, 0, fun _ => false⟩ = none := by
  refine ⟨by decide, ?_⟩
  simp only [Voidwind.ShipState.damage, Voidwind.Team.can_damage, Voidwind.gen_bool]
  norm_num
  exact fun h => absurd h (by decide)

/-- C2 amended: `ShipState::damage` returns the unchanged state together with
a `damaged == false, item_destroy_chance == 0, crit == false` report exactly
when the attacker's team equals the ship's team (`can_damage` false); when
`can_damage` is true, every call that completes (does not panic) returns a
report with `damaged == true`. -/
theorem c2_damage_report_amended (self : Voidwind.ShipState) (dmg : Voidwind.Damage)
    (dir : ℝ × ℝ × ℝ) (rolls : Voidwind.DamageRolls) :
    (dmg.team = self.team →
      Voidwind.ShipState.damage self dmg dir rolls =
        some (self, ⟨false, 0, false⟩)) ∧
    (dmg.team ≠ self.team → ∀ (s2 : Voidwind.ShipState) (rep : Voidwind.DamageReport),
      Voidwind.ShipState.damage self dmg dir rolls = some (s2, rep) →
        rep.damaged = true) := by
  constructor
  · intro hteam
    simp only [Voidwind.ShipState.damage, Voidwind.Team.can_damage]
    rw [if_neg]
    simp [hteam]
  · intro hne s2 rep h
    simp only [Voidwind.ShipState.damage] at h
    rw [if_pos (by simp [Voidwind.Team.can_damage, hne])] at h
    split at h
    · exact absurd h (by simp)
    · split at h
      · exact absurd h (by simp)
      · split at h
        · exact absurd h (by simp)
        · split at h
          · rw [Option.some_inj] at h
            obtain ⟨-, rfl⟩ := Prod.mk.injEq .. ▸ h
            rfl
          · exact Voidwind.hull_hit_damaged _ _ _ _ _ _ _ _ _ h

/-- C2 witness: the amended theorem applied at a same-team call (report is the
inert one and the state is unchanged) and at a cross-team call that completes
(report is damaged). -/
theorem c2_damage_report_witness :
    Voidwind.Team.English = Voidwind.Team.English ∧
    Voidwind.ShipState.damage
      ⟨10, 5, 0, 0, 1, Voidwind.Team.English, 10, 10, fun _ => 10, [], 0⟩
      ⟨⟨0, 0, 0, 0, 1, 0, 0, 0, 1, 0, 0, 1, 1, 0, 0⟩, Voidwind.Team.English⟩
      (1, 0, 0) ⟨false, true, 0, fun _ => false⟩ =
        some (⟨10, 5, 0, 0, 1, Voidwind.Team.English, 10, 10, fun _ => 10, [], 0⟩,
          ⟨false, 0, false⟩) :=
  ⟨rfl,
    (c2_damage_report_amended
      ⟨10, 5, 0, 0, 1, Voidwind.Team.English, 10, 10, fun _ => 10, [], 0⟩
      ⟨⟨0, 0, 0, 0, 1, 0, 0, 0, 1, 0, 0, 1, 1, 0, 0⟩, Voidwind.Team.English⟩
      (1, 0, 0) ⟨false, true, 0, fun _ => false⟩).1 rfl⟩

/-- C1 counterexample: the claim quantifies over every `Damage` value, but a
weapon with a negative `sail_damage` makes a completing call *increase* sails
above the `ShipStats` ceiling: starting from `sails = 10` with ceiling 10, the
call returns `sails = 21/2 > 10`. -/
theorem c1_counterexample :
    ∃ (s2 : Voidwind.ShipState) (rep : Voidwind.DamageReport),
      Voidwind.ShipState.damage
        ⟨10, 5, 0, 0, 1, Voidwind.Team.English, 10, 10, fun _ => 10, [], 0⟩
        ⟨⟨0, 0, 0, 0, 1, 0, 0, 0, -1, 0, 0, 1, 1, 0, 0⟩, Voidwind.Team.French⟩
        (1, 0, 0) ⟨false, true, 0, fun _ => false⟩ = some (s2, rep) ∧
      s2.sails = 21 / 2 ∧ ¬ s2.sails ≤ 10 := by
  refine ⟨⟨10, 5, 0, 0, 1, Voidwind.Team.English, 21 / 2, 10, fun _ => 10, [], 0⟩,
    ⟨true, 0, false⟩, ?_, rfl, by norm_num⟩
  simp only [Voidwind.ShipState.damage, Voidwind.Team.can_damage, Voidwind.gen_bool]
  norm_num
  decide

/-- C1 amended: for every `ShipState` within its `ShipStats` ceilings and
every `Damage` whose weapon stats (`damage`, `critical_multiplier`,
`sail_damage`, `armor_damage`, `crew_damage`) are nonnegative, every completing
(non-panicking) `ShipState::damage` call leaves `hull`, `crew`, `sails`,
`infirmary` and every armor segment at `≥ 0` and `≤` its ceiling. -/
theorem c1_damage_clamped_amended
    (stats : Voidwind.ShipStats) (self : Voidwind.ShipState) (dmg : Voidwind.Damage)
    (dir : ℝ × ℝ × ℝ) (rolls : Voidwind.DamageRolls)
    (s2 : Voidwind.ShipState) (rep : Voidwind.DamageReport)
    (hhull : 0 ≤ self.hull ∧ self.hull ≤ stats.hull)
    (hcrew : 0 ≤ self.crew ∧ self.crew ≤ stats.crew)
    (hsails : 0 ≤ self.sails ∧ self.sails ≤ stats.sails)
    (hinf : 0 ≤ self.infirmary ∧ self.infirmary ≤ stats.infirmary)
    (harmor : ∀ i, 0 ≤ self.armor i ∧ self.armor i ≤ stats.armor i)
    (hdmg : 0 ≤ dmg.weapon_stats.damage)
    (hcm : 0 ≤ dmg.weapon_stats.critical_multiplier)
    (hsd : 0 ≤ dmg.weapon_stats.sail_damage)
    (had : 0 ≤ dmg.weapon_stats.armor_damage)
    (hcd : 0 ≤ dmg.weapon_stats.crew_damage)
    (h : Voidwind.ShipState.damage self dmg dir rolls = some (s2, rep)) :
    (0 ≤ s2.hull ∧ s2.hull ≤ stats.hull) ∧
    (0 ≤ s2.crew ∧ s2.crew ≤ stats.crew) ∧
    (0 ≤ s2.sails ∧ s2.sails ≤ stats.sails) ∧
    (0 ≤ s2.infirmary ∧ s2.infirmary ≤ stats.infirmary) ∧
    (∀ i, 0 ≤ s2.armor i ∧ s2.armor i ≤ stats.armor i) := by
  simp only [Voidwind.ShipState.damage] at h
  split at h
  · split at h
    · exact absurd h (by simp)
    · rename_i xopt cv hcv
      have hbase : 0 ≤ (if cv = true then
          dmg.weapon_stats.damage * (1 + dmg.weapon_stats.critical_multiplier)
          else dmg.weapon_stats.damage) := by
        split
        · exact mul_nonneg hdmg (by linarith)
        · exact hdmg
      split at h
      · exact absurd h (by simp)
      · split at h
        · exact absurd h (by simp)
        · rename_i xopt2 sv hsv
          split at h
          · rw [Option.some_inj] at h
            obtain ⟨h1, -⟩ := Prod.mk.injEq .. ▸ h
            subst h1
            refine ⟨hhull, hcrew, ?_, hinf, harmor⟩
            exact Voidwind.clamp_bounds hsails.2 (le_trans hsails.1 hsails.2)
              (div_nonneg (mul_nonneg hsd hbase) (by norm_num))
          · exact Voidwind.hull_hit_clamped stats self dmg.weapon_stats dir.1 dir.2.2
              rolls _ _ s2 rep hhull hcrew hsails hinf harmor had hcd hbase h
  · rw [Option.some_inj] at h
    obtain ⟨h1, -⟩ := Prod.mk.injEq .. ▸ h
    subst h1
    exact ⟨hhull, hcrew, hsails, hinf, harmor⟩

/-- C1 witness: the amended theorem applied at a concrete completing call. -/
theorem c1_damage_clamped_witness :
    ((0 : ℚ) ≤ 10 ∧ (10 : ℚ) ≤ 10) ∧
    (Voidwind.ShipState.damage
        ⟨10, 5, 0, 0, 1, Voidwind.Team.English, 10, 10, fun _ => 10, [], 0⟩
        ⟨⟨0, 0, 0, 0, 1, 0, 0, 0, 1, 0, 0, 1, 1, 0, 0⟩, Voidwind.Team.English⟩
        (1, 0, 0) ⟨false, true, 0, fun _ => false⟩ =
      some (⟨10, 5, 0, 0, 1, Voidwind.Team.English, 10, 10, fun _ => 10, [], 0⟩,
        ⟨false, 0, false⟩)) ∧
    ((0 : ℚ) ≤ (Voidwind.ShipState.mk 10 5 0 0 1 Voidwind.Team.English 10 10
        (fun _ => 10) [] 0).sails ∧
      (Voidwind.ShipState.mk 10 5 0 0 1 Voidwind.Team.English 10 10
        (fun _ => 10) [] 0).sails ≤
        (Voidwind.ShipStats.mk 10 5 10 10 (fun _ => 10) 1 1).sails) := by
  have hev : Voidwind.ShipState.damage
      ⟨10, 5, 0, 0, 1, Voidwind.Team.English, 10, 10, fun _ => 10, [], 0⟩
      ⟨⟨0, 0, 0, 0, 1, 0, 0, 0, 1, 0, 0, 1, 1, 0, 0⟩, Voidwind.Team.English⟩
      (1, 0, 0) ⟨false, true, 0, fun _ => false⟩ =
      some (⟨10, 5, 0, 0, 1, Voidwind.Team.English, 10, 10, fun _ => 10, [], 0⟩,
        ⟨false, 0, false⟩) :=
    (c2_damage_report_amended _ _ _ _).1 rfl
  refine ⟨⟨by norm_num, le_refl _⟩, hev, ?_⟩
  exact (c1_damage_clamped_amended
    ⟨10, 5, 10, 10, fun _ => 10, 1, 1⟩
    ⟨10, 5, 0, 0, 1, Voidwind.Team.English, 10, 10, fun _ => 10, [], 0⟩
    ⟨⟨0, 0, 0, 0, 1, 0, 0, 0, 1, 0, 0, 1, 1, 0, 0⟩, Voidwind.Team.English⟩
    (1, 0, 0) ⟨false, true, 0, fun _ => false⟩ _ _
    ⟨by norm_num, le_refl _⟩ ⟨by norm_num, le_refl _⟩
    ⟨by norm_num, le_refl _⟩ ⟨by norm_num, le_refl _⟩
    (fun i => ⟨by norm_num, le_refl _⟩)
    (by norm_num) (by norm_num) (by norm_num) (by norm_num) (by norm_num)
    hev).2.2.1

namespace Voidwind

/-! ## A* pathfinding (src/astar.rs)

`AStarContext::solve` works on an implicit `size × size` grid of
`Point2<i32>` cells.  Its `f32` quantities are of two exact shapes: the
`cost` array holds sums of edge costs (rationals), and `f_score`s are
`cost + heuristic` where the heuristic is `√(dx² + dy²)` with integer
radicand.  A score is therefore represented exactly as a pair
`(g : ℚ, hsq : ℕ)` standing for `g + √hsq`, with a decidable comparison
`Score.blt` proved to agree with the real order (`Score.blt_iff`).

The `BinaryHeap<NodeAndScore>` (a max-heap under the reversed `f_score`
order, i.e. a min-heap) is modelled as a list whose pop extracts an element
of minimal score; the heap's tie order among equal scores is internal state
the source does not specify, and none of the verified properties depend on
it.  The `while` loop and the path-reconstruction loops run on explicit
fuel, with `none` for a non-terminating or panicking run.
-/

structure Score where
  g : ℚ
  hsq : ℕ
deriving DecidableEq, Repr

noncomputable def Score.val (s : Score) : ℝ := (s.g : ℝ) + Real.sqrt (s.hsq : ℝ)

/-- Decidable test for `s.val < t.val`, by case analysis and squaring. -/
def Score.blt (s t : Score) : Bool :=
  let d : ℚ := t.g - s.g
  if 0 ≤ d then
    let e : ℚ := (s.hsq : ℚ) - (t.hsq : ℚ) - d ^ 2
    if e < 0 then true else decide (e ^ 2 < 4 * d ^ 2 * (t.hsq : ℚ))
  else
    let e : ℚ := (s.hsq : ℚ) + d ^ 2 - (t.hsq : ℚ)
    if 0 ≤ e then false else decide (4 * d ^ 2 * (s.hsq : ℚ) < e ^ 2)

set_option maxHeartbeats 2000000 in
theorem Score.blt_iff (s t : Score) : s.blt t = true ↔ s.val < t.val := by
  rcases s with ⟨a, m⟩
  rcases t with ⟨b, n⟩
  unfold Score.blt Score.val
  simp only
  set sm := Real.sqrt (m : ℝ) with hsmdef
  set sn := Real.sqrt (n : ℝ) with hsndef
  have hsm0 : 0 ≤ sm := Real.sqrt_nonneg _
  have hsn0 : 0 ≤ sn := Real.sqrt_nonneg _
  have hsm : sm ^ 2 = (m : ℝ) := Real.sq_sqrt (by positivity)
  have hsn : sn ^ 2 = (n : ℝ) := Real.sq_sqrt (by positivity)
  have hiff : (a : ℝ) + sm < (b : ℝ) + sn ↔ sm < ((b - a : ℚ) : ℝ) + sn := by
    push_cast
    constructor <;> intro h <;> linarith
  rw [hiff]
  set d : ℚ := b - a with hd
  by_cases hd0 : 0 ≤ d
  · rw [if_pos hd0]
    have hdR : (0 : ℝ) ≤ (d : ℝ) := by exact_mod_cast hd0
    by_cases he : (m : ℚ) - (n : ℚ) - d ^ 2 < 0
    · rw [if_pos he]
      simp only [true_iff]
      have heR : (m : ℝ) - (n : ℝ) - (d : ℝ) ^ 2 < 0 := by exact_mod_cast he
      by_contra hle
      push_neg at hle
      have h2 : ((d : ℝ) + sn) ^ 2 ≤ sm ^ 2 := by nlinarith
      nlinarith
    · rw [if_neg he]
      push_neg at he
      have heR : (0 : ℝ) ≤ (m : ℝ) - (n : ℝ) - (d : ℝ) ^ 2 := by exact_mod_cast he
      simp only [decide_eq_true_eq]
      have hdsn : 0 ≤ 2 * (d : ℝ) * sn := by positivity
      constructor
      · intro hlt
        have hltR : ((m : ℚ) - (n : ℚ) - d ^ 2 : ℚ) ^ 2 < 4 * (d : ℚ) ^ 2 * (n : ℚ) := hlt
        have hR : ((m : ℝ) - (n : ℝ) - (d : ℝ) ^ 2) ^ 2 < 4 * (d : ℝ) ^ 2 * (n : ℝ) := by
          exact_mod_cast hltR
        have hlt2 : (m : ℝ) - (n : ℝ) - (d : ℝ) ^ 2 < 2 * (d : ℝ) * sn := by
          by_contra hc
          push_neg at hc
          have h1 : 0 ≤ (m : ℝ) - (n : ℝ) - (d : ℝ) ^ 2 - 2 * (d : ℝ) * sn := by linarith
          have h2 : 0 ≤ (m : ℝ) - (n : ℝ) - (d : ℝ) ^ 2 + 2 * (d : ℝ) * sn := by linarith
          nlinarith [mul_nonneg h1 h2, hsn]
        by_contra hle
        push_neg at hle
        have h2 : ((d : ℝ) + sn) ^ 2 ≤ sm ^ 2 := by nlinarith
        nlinarith
      · intro hlt
        have hm2 : sm ^ 2 < ((d : ℝ) + sn) ^ 2 := by nlinarith
        have hlt2 : (m : ℝ) - (n : ℝ) - (d : ℝ) ^ 2 < 2 * (d : ℝ) * sn := by nlinarith
        have hR : ((m : ℝ) - (n : ℝ) - (d : ℝ) ^ 2) ^ 2 < 4 * (d : ℝ) ^ 2 * (n : ℝ) := by
          nlinarith [mul_nonneg hdsn hdsn]
        exact_mod_cast hR
  · rw [if_neg hd0]
    push_neg at hd0
    have hdR : (d : ℝ) < 0 := by exact_mod_cast hd0
    by_cases he : 0 ≤ (m : ℚ) + d ^ 2 - (n : ℚ)
    · rw [if_pos he]
      simp only [Bool.false_eq_true, false_iff, not_lt]
      have heR : (0 : ℝ) ≤ (m : ℝ) + (d : ℝ) ^ 2 - (n : ℝ) := by exact_mod_cast he
      nlinarith
    · rw [if_neg he]
      push_neg at he
      have heR : (m : ℝ) + (d : ℝ) ^ 2 - (n : ℝ) < 0 := by exact_mod_cast he
      simp only [decide_eq_true_eq]
      constructor
      · intro hlt
        have hR : 4 * (d : ℝ) ^ 2 * (m : ℝ) < ((m : ℝ) + (d : ℝ) ^ 2 - (n : ℝ)) ^ 2 := by
          exact_mod_cast hlt
        have hdsm : 0 ≤ -(2 * (d : ℝ) * sm) := by nlinarith
        have hlt2 : (m : ℝ) + (d : ℝ) ^ 2 - (n : ℝ) < 2 * (d : ℝ) * sm := by
          by_contra hc
          push_neg at hc
          have ha : 0 ≤ -(2 * (d : ℝ) * sm) - -((m : ℝ) + (d : ℝ) ^ 2 - (n : ℝ)) := by
            linarith
          have hb : 0 < -(2 * (d : ℝ) * sm) + -((m : ℝ) + (d : ℝ) ^ 2 - (n : ℝ)) := by
            linarith
          nlinarith [mul_nonneg ha (le_of_lt hb), hsm]
        have h3 : (sm - (d : ℝ)) ^ 2 < sn ^ 2 := by nlinarith [hsm, hsn, hlt2]
        have h4 : sm - (d : ℝ) < sn := by
          by_contra hc
          push_neg at hc
          have := pow_le_pow_left hsn0 hc 2
          linarith
        linarith
      · intro hlt
        have h3 : sm - (d : ℝ) < sn := by linarith
        have h5 : 0 ≤ sm - (d : ℝ) := by nlinarith
        have h4 : (sm - (d : ℝ)) ^ 2 < sn ^ 2 := by nlinarith
        have hlt2 : (m : ℝ) + (d : ℝ) ^ 2 - (n : ℝ) < 2 * (d : ℝ) * sm := by nlinarith
        have h6 : 0 < -((m : ℝ) + (d : ℝ) ^ 2 - (n : ℝ)) := by linarith
        have h7 : 0 ≤ -(2 * (d : ℝ) * sm) := by nlinarith
        have h8 : 0 < -((m : ℝ) + (d : ℝ) ^ 2 - (n : ℝ)) + -(2 * (d : ℝ) * sm) := by linarith
        have h9 : 0 < -((m : ℝ) + (d : ℝ) ^ 2 - (n : ℝ)) - -(2 * (d : ℝ) * sm) := by linarith
        have hR : 4 * (d : ℝ) ^ 2 * (m : ℝ) < ((m : ℝ) + (d : ℝ) ^ 2 - (n : ℝ)) ^ 2 := by
          nlinarith [mul_pos h8 h9, hsm]
        exact_mod_cast hR

/-- A grid cell (`Point2<i32>`). -/
abbrev Cell := ℤ × ℤ

/-- Manhattan distance between two cells. -/
def manhattan (p q : Cell) : ℕ := (p.1 - q.1).natAbs + (p.2 - q.2).natAbs

/-- 4-connectivity. -/
def adjacent (p q : Cell) : Prop := manhattan p q = 1

/-- The squared Euclidean heuristic radicand: `AStarContext::heuristic`
computes `√((from.x-to.x)² + (from.y-to.y)²)`, represented by its (integer)
radicand. -/
def heur_sq (p q : Cell) : ℕ := ((p.1 - q.1) ^ 2 + (p.2 - q.2) ^ 2).toNat

/-- `AStarContext::map_to_idx`. -/
def map_to_idx (size : ℕ) (p : Cell) : Option ℕ :=
  if p.1 < 0 ∨ p.2 < 0 ∨ (size : ℤ) ≤ p.1 ∨ (size : ℤ) ≤ p.2 then none
  else some (p.2 * (size : ℤ) + p.1).toNat

/-- `AStarContext::idx_to_map`. -/
def idx_to_map (size : ℕ) (idx : ℕ) : Cell :=
  (((idx % size : ℕ) : ℤ), ((idx / size : ℕ) : ℤ))

/-- Extract an element of minimal score (`BinaryHeap::pop` under the reversed
`f_score` order); ties resolve to the leftmost element, standing in for the
heap's unspecified internal tie order. -/
def selectMin (x : Cell × Score) : List (Cell × Score) → (Cell × Score) × List (Cell × Score)
  | [] => (x, [])
  | y :: ys =>
      if Score.blt y.2 x.2 then
        let r := selectMin y ys
        (r.1, x :: r.2)
      else
        let r := selectMin x ys
        (r.1, y :: r.2)

theorem selectMin_perm : ∀ (l : List (Cell × Score)) (x : Cell × Score),
    List.Perm ((selectMin x l).1 :: (selectMin x l).2) (x :: l) := by
  intro l
  induction l with
  | nil => intro x; simp [selectMin]
  | cons y ys ih =>
      intro x
      simp only [selectMin]
      split
      · exact List.Perm.trans (List.Perm.swap x _ _) (List.Perm.cons x (ih y))
      · exact List.Perm.trans (List.Perm.trans (List.Perm.swap y _ _)
          (List.Perm.cons y (ih x))) (List.Perm.swap x y ys)

theorem selectMin_val_le : ∀ (l : List (Cell × Score)) (x : Cell × Score),
    ∀ y ∈ x :: l, ((selectMin x l).1).2.val ≤ y.2.val := by
  intro l
  induction l with
  | nil =>
      intro x y hy
      simp only [selectMin]
      rcases List.mem_cons.mp hy with rfl | hy2
      · exact le_refl _
      · exact absurd hy2 (List.not_mem_nil y)
  | cons z zs ih =>
      intro x y hy
      simp only [selectMin]
      split
      · rename_i hblt
        rw [Score.blt_iff] at hblt
        rcases List.mem_cons.mp hy with h1 | hy2
        · rw [h1]
          exact le_of_lt (lt_of_le_of_lt (ih z z (List.mem_cons_self z zs)) hblt)
        · exact ih z y hy2
      · rename_i hblt
        have hxz : x.2.val ≤ z.2.val := by
          rw [Score.blt_iff] at hblt
          exact le_of_not_lt hblt
        rcases List.mem_cons.mp hy with h1 | hy2
        · rw [h1]
          exact ih x x (List.mem_cons_self x zs)
        · rcases List.mem_cons.mp hy2 with h2 | hy3
          · rw [h2]
            exact le_trans (ih x x (List.mem_cons_self x zs)) hxz
          · exact ih x y (List.mem_cons.mpr (Or.inr hy3))

theorem selectMin_mem (x : Cell × Score) (l : List (Cell × Score)) :
    (selectMin x l).1 ∈ x :: l :=
  (selectMin_perm l x).mem_iff.mp (List.mem_cons_self _ _)

theorem selectMin_rest_subset (x : Cell × Score) (l : List (Cell × Score)) :
    ∀ y ∈ (selectMin x l).2, y ∈ x :: l :=
  fun y hy => (selectMin_perm l x).mem_iff.mp (List.mem_cons.mpr (Or.inr hy))

/-- The mutable state of one `solve` call: the open-set heap, the
`came_from` and `cost` scratch arrays, and the best-effort tracker
(`best_score_so_far` is always a heuristic value `√bestSq`, so it is stored
as its radicand; comparisons of heuristics agree since `√` is monotone). -/
structure SolveState where
  open_set : List (Cell × Score)
  came_from : ℕ → ℤ
  cost : ℕ → ℚ
  bestSq : ℕ
  bestIdx : ℤ

/-- The two path-reconstruction loops.  `none` models the panic on a
`came_from` hole (`-1 as usize` is out of bounds on the next array access)
and a non-terminating chain (fuel). -/
def reconstruct (size : ℕ) (came_from : ℕ → ℤ) (fromIdx : ℕ) :
    ℕ → ℕ → List Cell → Option (List Cell)
  | 0, _, _ => none
  | fuel + 1, curIdx, path =>
      if came_from curIdx < 0 then none
      else
        let nextIdx := (came_from curIdx).toNat
        let path2 := path ++ [idx_to_map size nextIdx]
        if nextIdx = fromIdx then some path2
        else reconstruct size came_from fromIdx fuel nextIdx path2

/-- One neighbour relaxation of the `for (dx, dy, cost) in ...` loop body. -/
def relax_one (size : ℕ) (isSolid : Cell → Bool) (costFn : Cell → ℚ) (goal : Cell)
    (curIdx : ℕ) (cur : Cell) (st : SolveState) (offs : ℤ × ℤ) : SolveState :=
  let next : Cell := (cur.1 + offs.1, cur.2 + offs.2)
  match map_to_idx size next with
  | none => st
  | some nextIdx =>
      if isSolid next then st
      else
        let new_cost := st.cost curIdx + 1 + costFn next
        if new_cost < st.cost nextIdx then
          let nh := heur_sq next goal
          let st1 :=
            if nh < st.bestSq then
              { st with bestSq := nh, bestIdx := (nextIdx : ℤ) }
            else st
          { st1 with
            came_from := Function.update st1.came_from nextIdx (curIdx : ℤ)
            cost := Function.update st1.cost nextIdx new_cost
            open_set := (next, ⟨new_cost, nh⟩) :: st1.open_set }
        else st

/-- The neighbour offsets, in source order. -/
def neighbor_offsets : List (ℤ × ℤ) := [(-1, 0), (1, 0), (0, -1), (0, 1)]

def expand (size : ℕ) (isSolid : Cell → Bool) (costFn : Cell → ℚ) (goal : Cell)
    (curIdx : ℕ) (cur : Cell) (st : SolveState) : SolveState :=
  neighbor_offsets.foldl (relax_one size isSolid costFn goal curIdx cur) st

/-- The `while !self.open_set.is_empty()` loop, on fuel. -/
def solve_loop (size : ℕ) (isSolid : Cell → Bool) (costFn : Cell → ℚ)
    (fromIdx toIdx : ℕ) (goal : Cell) : ℕ → SolveState → Option (List Cell)
  | 0, _ => none
  | fuel + 1, st =>
      match st.open_set with
      | [] =>
          if -1 < st.bestIdx then
            reconstruct size st.came_from fromIdx (size * size + 2) st.bestIdx.toNat
              [idx_to_map size st.bestIdx.toNat]
          else some []
      | x :: xs =>
          let sel := selectMin x xs
          match map_to_idx size sel.1.1 with
          | none => none
          | some curIdx =>
              if curIdx = toIdx then
                reconstruct size st.came_from fromIdx (size * size + 2) curIdx [goal]
              else
                solve_loop size isSolid costFn fromIdx toIdx goal fuel
                  (expand size isSolid costFn goal curIdx sel.1.1
                    { st with open_set := sel.2 })

/-- `AStarContext::solve`.  The scratch arrays are reset to `-1` / `1e6` at
the start of every call; `cost[from] = heuristic(from, from) = √0 = 0` and the
initial open-set entry carries that same f-score. -/
def solve (size : ℕ) (start goal : Cell) (isSolid : Cell → Bool)
    (costFn : Cell → ℚ) (fuel : ℕ) : Option (List Cell) :=
  match map_to_idx size start, map_to_idx size goal with
  | some fromIdx, some toIdx =>
      solve_loop size isSolid costFn fromIdx toIdx goal fuel
        { open_set := [(start, ⟨0, heur_sq start start⟩)]
          came_from := Function.update (fun _ => -1) fromIdx (fromIdx : ℤ)
          cost := Function.update (fun _ => 1000000) fromIdx 0
          bestSq := heur_sq start goal
          bestIdx := -1 }
  | _, _ => none

/-- Grid reachability through non-solid, in-bounds cells (the start cell
itself is unconstrained, as in the source, which never tests `is_solid` on
`from`). -/
inductive ReachableFrom (size : ℕ) (isSolid : Cell → Bool) (start : Cell) : Cell → Prop where
  | refl : ReachableFrom size isSolid start start
  | step {p q : Cell} : ReachableFrom size isSolid start p → adjacent p q →
      (map_to_idx size q).isSome → isSolid q = false → ReachableFrom size isSolid start q

theorem map_to_idx_eq_some {size : ℕ} {p : Cell} {i : ℕ}
    (h : map_to_idx size p = some i) :
    0 ≤ p.1 ∧ 0 ≤ p.2 ∧ p.1 < (size : ℤ) ∧ p.2 < (size : ℤ) ∧
      i = (p.2 * (size : ℤ) + p.1).toNat := by
  unfold map_to_idx at h
  split at h
  · exact absurd h (by simp)
  · rename_i hb
    push_neg at hb
    obtain ⟨h1, h2, h3, h4⟩ := hb
    rw [Option.some_inj] at h
    exact ⟨h1, h2, h3, h4, h.symm⟩

theorem map_to_idx_lt {size : ℕ} {p : Cell} {i : ℕ}
    (h : map_to_idx size p = some i) : i < size * size := by
  obtain ⟨h1, h2, h3, h4, h5⟩ := map_to_idx_eq_some h
  subst h5
  have hsz : (0 : ℤ) ≤ (size : ℤ) := by positivity
  have hkey : p.2 * (size : ℤ) + p.1 < (size : ℤ) * (size : ℤ) := by nlinarith
  have h0 : (0 : ℤ) ≤ p.2 * (size : ℤ) + p.1 := by positivity
  omega

theorem map_to_idx_roundtrip {size : ℕ} {p : Cell} {i : ℕ}
    (h : map_to_idx size p = some i) : idx_to_map size i = p := by
  obtain ⟨h1, h2, h3, h4, h5⟩ := map_to_idx_eq_some h
  have hs0 : 0 < size := by omega
  obtain ⟨a, ha⟩ : ∃ a : ℕ, p.1 = (a : ℤ) := ⟨p.1.toNat, (Int.toNat_of_nonneg h1).symm⟩
  obtain ⟨b, hb⟩ : ∃ b : ℕ, p.2 = (b : ℤ) := ⟨p.2.toNat, (Int.toNat_of_nonneg h2).symm⟩
  have hacz : a < size := by omega
  have hi : i = b * size + a := by
    subst h5
    rw [ha, hb]
    have hcast : (b : ℤ) * (size : ℤ) + (a : ℤ) = ((b * size + a : ℕ) : ℤ) := by
      push_cast; ring
    rw [hcast, Int.toNat_natCast]
  subst hi
  unfold idx_to_map
  rw [Nat.mul_comm b size, Nat.mul_add_mod, Nat.mod_eq_of_lt hacz,
    Nat.mul_add_div hs0, Nat.div_eq_of_lt hacz]
  simp only [Nat.add_zero]
  rw [Prod.ext_iff]
  exact ⟨ha.symm, hb.symm⟩

theorem map_to_idx_inj {size : ℕ} {p q : Cell} {i : ℕ}
    (hp : map_to_idx size p = some i) (hq : map_to_idx size q = some i) : p = q := by
  rw [← map_to_idx_roundtrip hp, ← map_to_idx_roundtrip hq]

theorem reconstruct_prefix {size : ℕ} {cf : ℕ → ℤ} {fromIdx : ℕ} :
    ∀ (fuel curIdx : ℕ) (path p : List Cell),
      reconstruct size cf fromIdx fuel curIdx path = some p → ∃ t, p = path ++ t := by
  intro fuel
  induction fuel with
  | zero => intro curIdx path p h; exact absurd h (by simp [reconstruct])
  | succ fuel ih =>
      intro curIdx path p h
      simp only [reconstruct] at h
      split at h
      · exact absurd h (by simp)
      · split at h
        · rw [Option.some_inj] at h
          exact ⟨[idx_to_map size (cf curIdx).toNat], h.symm⟩
        · obtain ⟨t, ht⟩ := ih _ _ p h
          exact ⟨idx_to_map size (cf curIdx).toNat :: t, by rw [ht]; simp⟩

/-- If every non-start cell is solid, only the start is reachable. -/
theorem reachable_elim {size : ℕ} {isSolid : Cell → Bool} {start q : Cell}
    (h : ReachableFrom size isSolid start q) : q = start ∨ isSolid q = false := by
  induction h with
  | refl => exact Or.inl rfl
  | step _ _ _ hsol _ => exact Or.inr hsol

/-- The loop invariant for the best-effort contract: every open-set entry is
reachable and in bounds, and the best-so-far tracker, once set, names an
in-bounds cell whose heuristic is the tracked `bestSq`, strictly below the
initial heuristic. -/
structure BestInv (size : ℕ) (isSolid : Cell → Bool) (start goal : Cell)
    (initSq : ℕ) (st : SolveState) : Prop where
  open_reach : ∀ e ∈ st.open_set,
    ReachableFrom size isSolid start e.1 ∧ ∃ j, map_to_idx size e.1 = some j
  best_valid : -1 < st.bestIdx →
    heur_sq (idx_to_map size st.bestIdx.toNat) goal = st.bestSq
  best_lt : -1 < st.bestIdx → st.bestSq < initSq
  best_le : st.bestSq ≤ initSq

theorem relax_one_best_inv {size : ℕ} {isSolid : Cell → Bool} {costFn : Cell → ℚ}
    {start goal : Cell} {initSq : ℕ} {curIdx : ℕ} {cur : Cell} {st : SolveState}
    (hinv : BestInv size isSolid start goal initSq st)
    (hcur : ReachableFrom size isSolid start cur) (offs : ℤ × ℤ)
    (hoffs : offs ∈ neighbor_offsets) :
    BestInv size isSolid start goal initSq
      (relax_one size isSolid costFn goal curIdx cur st offs) := by
  simp only [relax_one]
  cases hm : map_to_idx size (cur.1 + offs.1, cur.2 + offs.2) with
  | none => exact hinv
  | some nextIdx =>
      dsimp only
      by_cases hsolid : isSolid (cur.1 + offs.1, cur.2 + offs.2) = true
      · rw [if_pos hsolid]; exact hinv
      · rw [if_neg hsolid]
        by_cases hcost : st.cost curIdx + 1 + costFn (cur.1 + offs.1, cur.2 + offs.2) <
            st.cost nextIdx
        · rw [if_pos hcost]
          have hadj : adjacent cur (cur.1 + offs.1, cur.2 + offs.2) := by
            unfold adjacent manhattan
            fin_cases hoffs <;> simp
          have hreach : ReachableFrom size isSolid start (cur.1 + offs.1, cur.2 + offs.2) :=
            ReachableFrom.step hcur hadj (by rw [hm]; rfl) (by simpa using hsolid)
          by_cases hbest : heur_sq (cur.1 + offs.1, cur.2 + offs.2) goal < st.bestSq
          · simp only [if_pos hbest]
            refine ⟨?_, ?_, ?_, ?_⟩
            · intro e he
              rcases List.mem_cons.mp he with h1 | h2
              · rw [h1]
                exact ⟨hreach, nextIdx, hm⟩
              · exact hinv.open_reach e h2
            · intro _
              simp only [Int.toNat_natCast]
              rw [map_to_idx_roundtrip hm]
            · intro _
              exact lt_of_lt_of_le hbest hinv.best_le
            · exact le_trans (le_of_lt hbest) hinv.best_le
          · simp only [if_neg hbest]
            refine ⟨?_, hinv.best_valid, hinv.best_lt, hinv.best_le⟩
            intro e he
            rcases List.mem_cons.mp he with h1 | h2
            · rw [h1]
              exact ⟨hreach, nextIdx, hm⟩
            · exact hinv.open_reach e h2
        · rw [if_neg hcost]; exact hinv

theorem expand_best_inv {size : ℕ} {isSolid : Cell → Bool} {costFn : Cell → ℚ}
    {start goal : Cell} {initSq : ℕ} {curIdx : ℕ} {cur : Cell} {st : SolveState}
    (hinv : BestInv size isSolid start goal initSq st)
    (hcur : ReachableFrom size isSolid start cur) :
    BestInv size isSolid start goal initSq
      (expand size isSolid costFn goal curIdx cur st) := by
  unfold expand
  have : ∀ (offsl : List (ℤ × ℤ)), (∀ o ∈ offsl, o ∈ neighbor_offsets) →
      ∀ st, BestInv size isSolid start goal initSq st →
      BestInv size isSolid start goal initSq
        (offsl.foldl (relax_one size isSolid costFn goal curIdx cur) st) := by
    intro offsl
    induction offsl with
    | nil => intro _ st h; exact h
    | cons o os ih =>
        intro hsub st h
        exact ih (fun x hx => hsub x (List.mem_cons.mpr (Or.inr hx)))
          _ (relax_one_best_inv h hcur o (hsub o (List.mem_cons_self o os)))
  exact this neighbor_offsets (fun o ho => ho) st hinv

theorem solve_loop_best_effort {size : ℕ} {isSolid : Cell → Bool} {costFn : Cell → ℚ}
    {fromIdx toIdx : ℕ} {start goal : Cell} {initSq : ℕ}
    (hto : map_to_idx size goal = some toIdx) :
    ∀ (fuel : ℕ) (st : SolveState) (p : List Cell),
      BestInv size isSolid start goal initSq st →
      ¬ ReachableFrom size isSolid start goal →
      solve_loop size isSolid costFn fromIdx toIdx goal fuel st = some p →
      p = [] ∨ ∃ h t, p = h :: t ∧ heur_sq h goal < initSq := by
  intro fuel
  induction fuel with
  | zero =>
      intro st p _ _ h
      exact absurd h (by simp [solve_loop])
  | succ fuel ih =>
      intro st p hinv hunreach h
      simp only [solve_loop] at h
      split at h
      · split at h
        · rename_i hbest
          obtain ⟨t, ht⟩ := reconstruct_prefix _ _ _ _ h
          right
          refine ⟨idx_to_map size st.bestIdx.toNat, t, by rw [ht]; rfl, ?_⟩
          rw [hinv.best_valid hbest]
          exact hinv.best_lt hbest
        · left
          rw [Option.some_inj] at h
          exact h.symm
      · rename_i x xs hxs
        split at h
        · exact absurd h (by simp)
        · rename_i hmopt curIdx hm
          have hxmem : (selectMin x xs).1 ∈ st.open_set := by
            rw [hxs]
            exact selectMin_mem x xs
          have hcur := hinv.open_reach _ hxmem
          split at h
          · rename_i heq
            subst heq
            exact absurd (map_to_idx_inj hm hto ▸ hcur.1) hunreach
          · refine ih _ p ?_ hunreach h
            refine expand_best_inv ?_ hcur.1
            refine ⟨?_, hinv.best_valid, hinv.best_lt, hinv.best_le⟩
            intro e he
            refine hinv.open_reach e ?_
            rw [hxs]
            exact selectMin_rest_subset x xs e he

end Voidwind

set_option maxHeartbeats 16000000 in
/-- C4 counterexample: with every cell except `from = (0,0)` solid on a 2×2
grid and goal `(1,1)`, the goal is unreachable, yet `solve` returns the
*empty* path (no visited cell improves on the initial heuristic, so
`best_idx_so_far` stays `-1`), contradicting "never empty". -/
theorem c4_counterexample :
    ¬ Voidwind.ReachableFrom 2 (fun p => decide (p ≠ (0, 0))) (0, 0) (1, 1) ∧
    Voidwind.solve 2 (0, 0) (1, 1) (fun p => decide (p ≠ (0, 0))) (fun _ => 0) 20 =
      some [] := by
  constructor
  · intro hr
    rcases Voidwind.reachable_elim hr with h | h
    · exact absurd h (by decide)
    · exact absurd h (by decide)
  · norm_num [Voidwind.solve, Voidwind.solve_loop, Voidwind.map_to_idx, Voidwind.selectMin,
      Voidwind.expand, Voidwind.relax_one, Voidwind.neighbor_offsets, Voidwind.reconstruct,
      Voidwind.idx_to_map, Voidwind.heur_sq, Function.update, Int.toNat,
      -Prod.mk_one_one, -Prod.mk_zero_zero, Prod.ext_iff]

/-- C4 amended: whenever `solve` completes on a grid whose goal is
unreachable from the start, it returns either the empty path (when no
encountered cell strictly improved on the initial heuristic, i.e.
`best_idx_so_far` stayed `-1`) or a non-empty best-effort path whose first
cell's Euclidean heuristic to the goal is strictly below the initial
heuristic from start to goal. -/
theorem c4_solve_best_effort_amended (size : ℕ) (start goal : Voidwind.Cell)
    (isSolid : Voidwind.Cell → Bool) (costFn : Voidwind.Cell → ℚ) (fuel : ℕ)
    (p : List Voidwind.Cell)
    (hunreach : ¬ Voidwind.ReachableFrom size isSolid start goal)
    (h : Voidwind.solve size start goal isSolid costFn fuel = some p) :
    p = [] ∨ ∃ hd t, p = hd :: t ∧
      Voidwind.heur_sq hd goal < Voidwind.heur_sq start goal := by
  unfold Voidwind.solve at h
  split at h
  · rename_i fromIdx toIdx hfrom hto
    refine Voidwind.solve_loop_best_effort hto fuel _ p ?_ hunreach h
    refine ⟨?_, ?_, ?_, le_refl _⟩
    · intro e he
      rcases List.mem_cons.mp he with h1 | h2
      · rw [h1]
        exact ⟨Voidwind.ReachableFrom.refl, fromIdx, hfrom⟩
      · exact absurd h2 (List.not_mem_nil e)
    · intro hlt
      dsimp only at hlt
      exact absurd hlt (by decide)
    · intro hlt
      dsimp only at hlt
      exact absurd hlt (by decide)
  · exact absurd h (by simp)

set_option maxHeartbeats 16000000 in
/-- C4 witness: the amended theorem applied to a 2×2 grid where the goal
`(1,1)` is walled off but the visited cell `(1,0)` improves the heuristic:
the returned best-effort path is `[(1,0), (0,0)]`. -/
theorem c4_solve_best_effort_witness :
    ¬ Voidwind.ReachableFrom 2 (fun p => decide (p ≠ (0, 0) ∧ p ≠ (1, 0))) (0, 0) (1, 1) ∧
    Voidwind.solve 2 (0, 0) (1, 1) (fun p => decide (p ≠ (0, 0) ∧ p ≠ (1, 0)))
      (fun _ => 0) 20 = some [(1, 0), (0, 0)] ∧
    ([(1, 0), (0, 0)] = ([] : List Voidwind.Cell) ∨ ∃ hd t,
      [(1, 0), (0, 0)] = hd :: t ∧
        Voidwind.heur_sq hd (1, 1) < Voidwind.heur_sq (0, 0) (1, 1)) := by
  have hunreach : ¬ Voidwind.ReachableFrom 2
      (fun p => decide (p ≠ (0, 0) ∧ p ≠ (1, 0))) (0, 0) (1, 1) := by
    intro hr
    rcases Voidwind.reachable_elim hr with h | h
    · exact absurd h (by decide)
    · exact absurd h (by decide)
  have hev : Voidwind.solve 2 (0, 0) (1, 1)
      (fun p => decide (p ≠ (0, 0) ∧ p ≠ (1, 0))) (fun _ => 0) 20 =
      some [(1, 0), (0, 0)] := by
    norm_num [Voidwind.solve, Voidwind.solve_loop, Voidwind.map_to_idx, Voidwind.selectMin,
      Voidwind.expand, Voidwind.relax_one, Voidwind.neighbor_offsets, Voidwind.reconstruct,
      Voidwind.idx_to_map, Voidwind.heur_sq, Function.update, Int.toNat, Voidwind.Score.blt,
      -Prod.mk_one_one, -Prod.mk_zero_zero, Prod.ext_iff]
  exact ⟨hunreach, hev,
    c4_solve_best_effort_amended 2 (0, 0) (1, 1) _ _ 20 _ hunreach hev⟩

namespace Voidwind

theorem manhattan_comm (p q : Cell) : manhattan p q = manhattan q p := by
  unfold manhattan
  omega

theorem manhattan_triangle (a b c : Cell) :
    manhattan a c ≤ manhattan a b + manhattan b c := by
  unfold manhattan
  omega

theorem manhattan_eq_zero {p q : Cell} : manhattan p q = 0 ↔ p = q := by
  unfold manhattan
  rw [Prod.ext_iff]
  omega

theorem adjacent_iff_offset {c q : Cell} :
    adjacent c q ↔ ∃ o ∈ neighbor_offsets, q = (c.1 + o.1, c.2 + o.2) := by
  unfold adjacent manhattan neighbor_offsets
  constructor
  · intro h
    rcases q with ⟨q1, q2⟩
    rcases c with ⟨c1, c2⟩
    simp only [Prod.ext_iff, List.mem_cons, List.not_mem_nil]
    by_cases h1 : q1 = c1 - 1 ∧ q2 = c2
    · exact ⟨(-1, 0), by simp, by dsimp; omega⟩
    by_cases h2 : q1 = c1 + 1 ∧ q2 = c2
    · exact ⟨(1, 0), by simp, by dsimp; omega⟩
    by_cases h3 : q1 = c1 ∧ q2 = c2 - 1
    · exact ⟨(0, -1), by simp, by dsimp; omega⟩
    refine ⟨(0, 1), by simp, by dsimp; omega⟩
  · rintro ⟨o, ho, rfl⟩
    fin_cases ho <;> simp <;> omega

/-- The Euclidean heuristic is admissible against the Manhattan metric. -/
theorem sqrt_heur_sq_le_manhattan (p q : Cell) :
    Real.sqrt (heur_sq p q : ℝ) ≤ (manhattan p q : ℝ) := by
  unfold heur_sq manhattan
  set dx := p.1 - q.1 with hdx
  set dy := p.2 - q.2 with hdy
  have h0 : (0 : ℤ) ≤ dx ^ 2 + dy ^ 2 := by positivity
  have hcast : (((dx ^ 2 + dy ^ 2).toNat : ℕ) : ℝ) = (dx : ℝ) ^ 2 + (dy : ℝ) ^ 2 := by
    rw [← Int.cast_natCast, Int.toNat_of_nonneg h0]
    push_cast
    ring
  rw [hcast]
  have habs : ((dx.natAbs + dy.natAbs : ℕ) : ℝ) = |(dx : ℝ)| + |(dy : ℝ)| := by
    push_cast [Int.cast_natAbs]
    norm_num
  rw [habs]
  have hle : (dx : ℝ) ^ 2 + (dy : ℝ) ^ 2 ≤ (|(dx : ℝ)| + |(dy : ℝ)|) ^ 2 := by
    have h1 : |(dx : ℝ)| ^ 2 = (dx : ℝ) ^ 2 := sq_abs _
    have h2 : |(dy : ℝ)| ^ 2 = (dy : ℝ) ^ 2 := sq_abs _
    nlinarith [abs_nonneg (dx : ℝ), abs_nonneg (dy : ℝ)]
  calc Real.sqrt ((dx : ℝ) ^ 2 + (dy : ℝ) ^ 2)
      ≤ Real.sqrt ((|(dx : ℝ)| + |(dy : ℝ)|) ^ 2) := Real.sqrt_le_sqrt hle
    _ = |(dx : ℝ)| + |(dy : ℝ)| := by
        rw [Real.sqrt_sq (by positivity)]

/-- Reverse round trip: a valid index maps to an in-bounds cell and back. -/
theorem idx_to_map_valid {size : ℕ} {i : ℕ} (h : i < size * size) :
    map_to_idx size (idx_to_map size i) = some i := by
  have hs0 : 0 < size := by
    rcases Nat.eq_zero_or_pos size with h0 | h0
    · subst h0; omega
    · exact h0
  have hmod : i % size < size := Nat.mod_lt i hs0
  have hdiv : i / size < size := Nat.div_lt_of_lt_mul (by omega)
  unfold idx_to_map map_to_idx
  rw [if_neg]
  · congr 1
    have : ((i / size : ℕ) : ℤ) * (size : ℤ) + ((i % size : ℕ) : ℤ) =
        ((i / size * size + i % size : ℕ) : ℤ) := by push_cast; ring
    rw [this, Int.toNat_natCast, Nat.mul_comm (i / size) size]
    exact Nat.div_add_mod i size
  · push_neg
    refine ⟨by positivity, by positivity, ?_, ?_⟩
    · show ((i % size : ℕ) : ℤ) < (size : ℤ)
      exact_mod_cast hmod
    · show ((i / size : ℕ) : ℤ) < (size : ℤ)
      exact_mod_cast hdiv

end Voidwind

namespace Voidwind

/-- The straight Manhattan path from `p` to `q`: first walk the x offset,
then the y offset (used as the concrete optimal path in the A* proof). -/
def lpath (p q : Cell) (k : ℕ) : Cell :=
  if (k : ℤ) ≤ |q.1 - p.1| then (p.1 + Int.sign (q.1 - p.1) * k, p.2)
  else (q.1, p.2 + Int.sign (q.2 - p.2) * ((k : ℤ) - |q.1 - p.1|))

theorem int_sign_cases (a : ℤ) :
    (0 < a ∧ Int.sign a = 1) ∨ (a = 0 ∧ Int.sign a = 0) ∨ (a < 0 ∧ Int.sign a = -1) := by
  rcases lt_trichotomy a 0 with h | h | h
  · exact Or.inr (Or.inr ⟨h, Int.sign_eq_neg_one_of_neg h⟩)
  · exact Or.inr (Or.inl ⟨h, by rw [h]; rfl⟩)
  · exact Or.inl ⟨h, Int.sign_eq_one_of_pos h⟩

theorem manhattan_cast (p q : Cell) :
    ((manhattan p q : ℕ) : ℤ) = |q.1 - p.1| + |q.2 - p.2| := by
  unfold manhattan
  push_cast
  rw [abs_sub_comm p.1 q.1, abs_sub_comm p.2 q.2]

theorem lpath_zero (p q : Cell) : lpath p q 0 = p := by
  unfold lpath
  rw [if_pos (by positivity)]
  simp

theorem lpath_last (p q : Cell) : lpath p q (manhattan p q) = q := by
  unfold lpath
  rw [manhattan_cast]
  rcases int_sign_cases (q.1 - p.1) with ⟨ha, hsa⟩ | ⟨ha, hsa⟩ | ⟨ha, hsa⟩ <;>
    rcases int_sign_cases (q.2 - p.2) with ⟨hb, hsb⟩ | ⟨hb, hsb⟩ | ⟨hb, hsb⟩ <;>
    rw [hsa, hsb] <;>
    simp only [Int.abs_eq_natAbs] <;>
    split <;>
    rw [Prod.ext_iff] <;>
    dsimp only <;>
    omega

theorem lpath_step (p q : Cell) (k : ℕ) (hk : k < manhattan p q) :
    adjacent (lpath p q k) (lpath p q (k + 1)) := by
  have hM := manhattan_cast p q
  rw [Int.abs_eq_natAbs, Int.abs_eq_natAbs] at hM
  unfold lpath adjacent manhattan
  rcases int_sign_cases (q.1 - p.1) with ⟨ha, hsa⟩ | ⟨ha, hsa⟩ | ⟨ha, hsa⟩ <;>
    rcases int_sign_cases (q.2 - p.2) with ⟨hb, hsb⟩ | ⟨hb, hsb⟩ | ⟨hb, hsb⟩ <;>
    rw [hsa, hsb] <;>
    simp only [Int.abs_eq_natAbs] <;>
    split <;> split <;>
    dsimp only <;>
    omega

theorem lpath_manhattan_to (p q : Cell) (k : ℕ) (hk : k ≤ manhattan p q) :
    manhattan (lpath p q k) q = manhattan p q - k := by
  have hM := manhattan_cast p q
  rw [Int.abs_eq_natAbs, Int.abs_eq_natAbs] at hM
  unfold lpath manhattan
  rcases int_sign_cases (q.1 - p.1) with ⟨ha, hsa⟩ | ⟨ha, hsa⟩ | ⟨ha, hsa⟩ <;>
    rcases int_sign_cases (q.2 - p.2) with ⟨hb, hsb⟩ | ⟨hb, hsb⟩ | ⟨hb, hsb⟩ <;>
    rw [hsa, hsb] <;>
    simp only [Int.abs_eq_natAbs] <;>
    split <;>
    dsimp only <;>
    omega

theorem lpath_manhattan_from (p q : Cell) (k : ℕ) (hk : k ≤ manhattan p q) :
    manhattan p (lpath p q k) = k := by
  have hM := manhattan_cast p q
  rw [Int.abs_eq_natAbs, Int.abs_eq_natAbs] at hM
  unfold lpath manhattan
  rcases int_sign_cases (q.1 - p.1) with ⟨ha, hsa⟩ | ⟨ha, hsa⟩ | ⟨ha, hsa⟩ <;>
    rcases int_sign_cases (q.2 - p.2) with ⟨hb, hsb⟩ | ⟨hb, hsb⟩ | ⟨hb, hsb⟩ <;>
    rw [hsa, hsb] <;>
    simp only [Int.abs_eq_natAbs] <;>
    split <;>
    dsimp only <;>
    omega

theorem lpath_in_bounds {size : ℕ} {p q : Cell} {fp fq : ℕ} (k : ℕ)
    (hk : k ≤ manhattan p q)
    (hp : map_to_idx size p = some fp) (hq : map_to_idx size q = some fq) :
    ∃ j, map_to_idx size (lpath p q k) = some j := by
  obtain ⟨hp1, hp2, hp3, hp4, -⟩ := map_to_idx_eq_some hp
  obtain ⟨hq1, hq2, hq3, hq4, -⟩ := map_to_idx_eq_some hq
  have hM := manhattan_cast p q
  have hbounds : 0 ≤ (lpath p q k).1 ∧ (lpath p q k).1 < (size : ℤ) ∧
      0 ≤ (lpath p q k).2 ∧ (lpath p q k).2 < (size : ℤ) := by
    unfold lpath
    rw [Int.abs_eq_natAbs, Int.abs_eq_natAbs] at hM
    rcases int_sign_cases (q.1 - p.1) with ⟨ha, hsa⟩ | ⟨ha, hsa⟩ | ⟨ha, hsa⟩ <;>
      rcases int_sign_cases (q.2 - p.2) with ⟨hb, hsb⟩ | ⟨hb, hsb⟩ | ⟨hb, hsb⟩ <;>
      rw [hsa, hsb] <;>
      simp only [Int.abs_eq_natAbs] <;>
      split <;>
      dsimp only <;>
      omega
  refine ⟨((lpath p q k).2 * (size : ℤ) + (lpath p q k).1).toNat, ?_⟩
  unfold map_to_idx
  rw [if_neg]
  push_neg
  exact ⟨hbounds.1, hbounds.2.2.1, hbounds.2.1, hbounds.2.2.2⟩

end Voidwind

namespace Voidwind

theorem adjacent_symm {p q : Cell} (h : adjacent p q) : adjacent q p := by
  unfold adjacent at h ⊢
  rw [manhattan_comm]
  exact h

theorem heur_sq_self (p : Cell) : heur_sq p p = 0 := by
  unfold heur_sq
  simp

theorem adjacent_of_offset {cur : Cell} {o : ℤ × ℤ} (ho : o ∈ neighbor_offsets) :
    adjacent cur (cur.1 + o.1, cur.2 + o.2) :=
  adjacent_iff_offset.mpr ⟨o, ho, rfl⟩

/-- Exactly what one relaxation step does on an obstacle-free, zero-extra-cost
grid: either it is a no-op (and then any in-bounds neighbour it looked at
already has cost at most `cost[cur] + 1`), or it fires: it pushes the
neighbour with `g = cost[cur] + 1`, rewires `came_from`, lowers the cost, and
possibly retargets the best-so-far tracker. -/
theorem relax_one_spec (size : ℕ) (goal : Cell) (curIdx : ℕ) (cur : Cell)
    (st : SolveState) (o : ℤ × ℤ) :
    (relax_one size (fun _ => false) (fun _ => 0) goal curIdx cur st o = st ∧
      ∀ nextIdx, map_to_idx size (cur.1 + o.1, cur.2 + o.2) = some nextIdx →
        st.cost nextIdx ≤ st.cost curIdx + 1) ∨
    (∃ nextIdx, map_to_idx size (cur.1 + o.1, cur.2 + o.2) = some nextIdx ∧
      st.cost curIdx + 1 < st.cost nextIdx ∧
      (relax_one size (fun _ => false) (fun _ => 0) goal curIdx cur st o).open_set =
        ((cur.1 + o.1, cur.2 + o.2),
          ⟨st.cost curIdx + 1, heur_sq (cur.1 + o.1, cur.2 + o.2) goal⟩) :: st.open_set ∧
      (relax_one size (fun _ => false) (fun _ => 0) goal curIdx cur st o).came_from =
        Function.update st.came_from nextIdx (curIdx : ℤ) ∧
      (relax_one size (fun _ => false) (fun _ => 0) goal curIdx cur st o).cost =
        Function.update st.cost nextIdx (st.cost curIdx + 1) ∧
      ((relax_one size (fun _ => false) (fun _ => 0) goal curIdx cur st o).bestIdx = st.bestIdx ∨
        (relax_one size (fun _ => false) (fun _ => 0) goal curIdx cur st o).bestIdx =
          (nextIdx : ℤ))) := by
  simp only [relax_one, add_zero]
  cases hm : map_to_idx size (cur.1 + o.1, cur.2 + o.2) with
  | none =>
      left
      refine ⟨rfl, ?_⟩
      intro n hn
      exact absurd hn (by simp)
  | some nextIdx =>
      dsimp only
      rw [if_neg (by simp)]
      by_cases hcost : st.cost curIdx + 1 < st.cost nextIdx
      · rw [if_pos hcost]
        right
        refine ⟨nextIdx, rfl, hcost, ?_⟩
        by_cases hbest : heur_sq (cur.1 + o.1, cur.2 + o.2) goal < st.bestSq
        · rw [if_pos hbest]
          exact ⟨rfl, rfl, rfl, Or.inr rfl⟩
        · rw [if_neg hbest]
          exact ⟨rfl, rfl, rfl, Or.inl rfl⟩
      · rw [if_neg hcost]
        left
        refine ⟨rfl, ?_⟩
        intro n hn
        rw [Option.some_inj] at hn
        rw [← hn]
        exact le_of_not_lt hcost

/-- A relaxation step never increases any cost. -/
theorem relax_one_cost_le (size : ℕ) (goal : Cell) (curIdx : ℕ) (cur : Cell)
    (st : SolveState) (o : ℤ × ℤ) (i : ℕ) :
    (relax_one size (fun _ => false) (fun _ => 0) goal curIdx cur st o).cost i ≤ st.cost i := by
  rcases relax_one_spec size goal curIdx cur st o with ⟨heq, -⟩ |
    ⟨nextIdx, hm, hlt, -, -, hcost, -⟩
  · rw [heq]
  · rw [hcost]
    by_cases hi : i = nextIdx
    · subst hi
      rw [Function.update_same]
      exact le_of_lt hlt
    · rw [Function.update_noteq hi]

/-- A relaxation step never touches the cost of the expanded cell itself. -/
theorem relax_one_cost_cur (size : ℕ) (goal : Cell) (curIdx : ℕ) (cur : Cell)
    (st : SolveState) (o : ℤ × ℤ) (hcur : map_to_idx size cur = some curIdx)
    (ho : o ∈ neighbor_offsets) :
    (relax_one size (fun _ => false) (fun _ => 0) goal curIdx cur st o).cost curIdx =
      st.cost curIdx := by
  rcases relax_one_spec size goal curIdx cur st o with ⟨heq, -⟩ |
    ⟨nextIdx, hm, hlt, -, -, hcost, -⟩
  · rw [heq]
  · rw [hcost]
    have hnc : (cur.1 + o.1, cur.2 + o.2) ≠ cur := by
      intro h
      have hadj := @adjacent_of_offset cur o ho
      rw [h] at hadj
      unfold adjacent at hadj
      rw [manhattan_eq_zero.mpr rfl] at hadj
      exact absurd hadj (by simp)
    have hnext : curIdx ≠ nextIdx := by
      intro h
      subst h
      exact hnc (map_to_idx_inj hm hcur)
    rw [Function.update_noteq hnext]

end Voidwind

namespace Voidwind

/-- The core loop invariant of `solve` on an obstacle-free zero-cost grid
(everything except the expansion property `ClosedAt`, which popping
temporarily breaks for the popped cell until its neighbours are relaxed). -/
structure C5Core (size : ℕ) (start goal : Cell) (fromIdx toIdx : ℕ)
    (st : SolveState) : Prop where
  cost_from : st.cost fromIdx = 0
  from_parent : st.came_from fromIdx = (fromIdx : ℤ)
  cost_nat : ∀ i, i < size * size → st.cost i = 1000000 ∨
    ∃ g : ℕ, st.cost i = (g : ℚ) ∧ manhattan start (idx_to_map size i) ≤ g ∧ g < 1000000
  open_entries : ∀ e ∈ st.open_set, ∃ j, map_to_idx size e.1 = some j ∧
    st.cost j ≤ e.2.g ∧
    (e.2.hsq = heur_sq e.1 goal ∨ (e.1 = start ∧ e.2.g = 0 ∧ e.2.hsq = 0)) ∧
    ∃ ge : ℕ, e.2.g = (ge : ℚ) ∧ ge < 1000000
  goal_entry : st.cost toIdx = 1000000 ∨ ∃ e ∈ st.open_set, e.1 = goal
  parent_inv : ∀ i, i < size * size → st.cost i < 1000000 → i ≠ fromIdx →
    ∃ j : ℕ, st.came_from i = (j : ℤ) ∧ j < size * size ∧
      st.cost j + 1 ≤ st.cost i ∧ adjacent (idx_to_map size j) (idx_to_map size i)
  best_inv : -1 < st.bestIdx →
    st.bestIdx.toNat < size * size ∧ st.cost st.bestIdx.toNat < 1000000

/-- The expansion property at one cell: a cell holding a finite cost either
still has a fresh open entry, or all its in-bounds neighbours have been
relaxed below `cost + 1`. -/
def ClosedAt (size : ℕ) (st : SolveState) (i : ℕ) : Prop :=
  i < size * size → st.cost i < 1000000 →
    (∃ e ∈ st.open_set, map_to_idx size e.1 = some i ∧ e.2.g = st.cost i) ∨
    (∀ q j, adjacent (idx_to_map size i) q → map_to_idx size q = some j →
      st.cost j ≤ st.cost i + 1)

/-- The full invariant: the core plus the expansion property everywhere. -/
structure C5Inv (size : ℕ) (start goal : Cell) (fromIdx toIdx : ℕ)
    (st : SolveState) extends C5Core size start goal fromIdx toIdx st : Prop where
  closed_inv : ∀ i, ClosedAt size st i

/-- Every in-bounds cost is at most the `1e6` sentinel. -/
theorem C5Core.cost_le {size : ℕ} {start goal : Cell} {fromIdx toIdx : ℕ}
    {st : SolveState} (hinv : C5Core size start goal fromIdx toIdx st)
    {i : ℕ} (hi : i < size * size) : st.cost i ≤ 1000000 := by
  rcases hinv.cost_nat i hi with h | ⟨g, hg, -, hglt⟩
  · rw [h]
  · rw [hg]
    calc (g : ℚ) ≤ 999999 := by exact_mod_cast Nat.le_of_lt_succ (by omega)
    _ ≤ 1000000 := by norm_num

/-- Every in-bounds cost is nonnegative. -/
theorem C5Core.cost_nonneg {size : ℕ} {start goal : Cell} {fromIdx toIdx : ℕ}
    {st : SolveState} (hinv : C5Core size start goal fromIdx toIdx st)
    {i : ℕ} (hi : i < size * size) : 0 ≤ st.cost i := by
  rcases hinv.cost_nat i hi with h | ⟨g, hg, -, -⟩
  · rw [h]; norm_num
  · rw [hg]; positivity

end Voidwind

namespace Voidwind

theorem relax_one_core {size : ℕ} {start goal : Cell} {fromIdx toIdx : ℕ}
    {curIdx : ℕ} {cur : Cell} {st : SolveState}
    (hinv : C5Core size start goal fromIdx toIdx st)
    (hto : map_to_idx size goal = some toIdx)
    (hcur : map_to_idx size cur = some curIdx)
    {o : ℤ × ℤ} (ho : o ∈ neighbor_offsets) :
    C5Core size start goal fromIdx toIdx
      (relax_one size (fun _ => false) (fun _ => 0) goal curIdx cur st o) := by
  have hspec := relax_one_spec size goal curIdx cur st o
  have hcle := relax_one_cost_le size goal curIdx cur st o
  set st' := relax_one size (fun _ => false) (fun _ => 0) goal curIdx cur st o with hdef
  rcases hspec with ⟨heq, -⟩ | ⟨nextIdx, hm, hlt, hopen, hcame, hcost, hbest⟩
  · rw [heq]; exact hinv
  · have hnlt : nextIdx < size * size := map_to_idx_lt hm
    have hclt : curIdx < size * size := map_to_idx_lt hcur
    have hadj : adjacent cur (cur.1 + o.1, cur.2 + o.2) := adjacent_of_offset ho
    have hnc : (cur.1 + o.1, cur.2 + o.2) ≠ cur := by
      intro h
      have h2 := hadj
      rw [h] at h2
      unfold adjacent at h2
      rw [manhattan_eq_zero.mpr rfl] at h2
      exact absurd h2 (by simp)
    have hni : nextIdx ≠ curIdx := by
      intro h
      subst h
      exact hnc (map_to_idx_inj hm hcur)
    have hfne : fromIdx ≠ nextIdx := by
      intro h
      rw [← h, hinv.cost_from] at hlt
      have hpos := hinv.cost_nonneg hclt
      linarith
    have hgcx : ∃ gc : ℕ, st.cost curIdx = (gc : ℚ) ∧ manhattan start cur ≤ gc ∧
        gc + 1 < 1000000 := by
      rcases hinv.cost_nat curIdx hclt with h | ⟨gc, hgc, hman, -⟩
      · exfalso
        have hle := hinv.cost_le hnlt
        rw [h] at hlt
        linarith
      · refine ⟨gc, hgc, by rwa [map_to_idx_roundtrip hcur] at hman, ?_⟩
        have hle := hinv.cost_le hnlt
        rw [hgc] at hlt
        have hq : (gc : ℚ) + 1 < 1000000 := by linarith
        exact_mod_cast hq
    obtain ⟨gc, hgc, hmanc, hgclt⟩ := hgcx
    have hnew : st.cost curIdx + 1 = ((gc + 1 : ℕ) : ℚ) := by
      rw [hgc]; push_cast; ring
    refine ⟨?_, ?_, ?_, ?_, ?_, ?_, ?_⟩
    · rw [hcost, Function.update_noteq hfne, hinv.cost_from]
    · rw [hcame, Function.update_noteq hfne, hinv.from_parent]
    · intro i hi
      rw [hcost]
      by_cases hieq : i = nextIdx
      · subst hieq
        rw [Function.update_same]
        right
        refine ⟨gc + 1, hnew, ?_, hgclt⟩
        rw [map_to_idx_roundtrip hm]
        calc manhattan start (cur.1 + o.1, cur.2 + o.2)
            ≤ manhattan start cur + manhattan cur (cur.1 + o.1, cur.2 + o.2) :=
              manhattan_triangle _ _ _
          _ ≤ gc + 1 := by
              have h2 := hadj
              unfold adjacent at h2
              omega
      · rw [Function.update_noteq hieq]
        exact hinv.cost_nat i hi
    · intro e he
      rw [hopen] at he
      rcases List.mem_cons.mp he with rfl | he2
      · refine ⟨nextIdx, hm, ?_, Or.inl rfl, gc + 1, hnew, hgclt⟩
        rw [hcost, Function.update_same]
      · obtain ⟨j, hj, hcj, hsq, hge⟩ := hinv.open_entries e he2
        exact ⟨j, hj, le_trans (hcle j) hcj, hsq, hge⟩
    · by_cases hteq : toIdx = nextIdx
      · right
        refine ⟨((cur.1 + o.1, cur.2 + o.2),
          ⟨st.cost curIdx + 1, heur_sq (cur.1 + o.1, cur.2 + o.2) goal⟩), ?_, ?_⟩
        · rw [hopen]; exact List.mem_cons_self _ _
        · have hmt : map_to_idx size (cur.1 + o.1, cur.2 + o.2) = some toIdx := by
            rw [hm, hteq]
          exact map_to_idx_inj hmt hto
      · have hct : st'.cost toIdx = st.cost toIdx := by
          rw [hcost, Function.update_noteq hteq]
        rw [hct]
        rcases hinv.goal_entry with h | ⟨e, he, hg⟩
        · exact Or.inl h
        · exact Or.inr ⟨e, by rw [hopen]; exact List.mem_cons_of_mem _ he, hg⟩
    · intro i hi hfin hif
      by_cases hieq : i = nextIdx
      · subst hieq
        refine ⟨curIdx, ?_, hclt, ?_, ?_⟩
        · rw [hcame, Function.update_same]
        · rw [hcost, Function.update_noteq (Ne.symm hni), Function.update_same]
        · rw [map_to_idx_roundtrip hcur, map_to_idx_roundtrip hm]
          exact hadj
      · have hci : st'.cost i = st.cost i := by
          rw [hcost, Function.update_noteq hieq]
        rw [hci] at hfin
        obtain ⟨j, hj, hjlt, hjc, hjadj⟩ := hinv.parent_inv i hi hfin hif
        refine ⟨j, ?_, hjlt, ?_, hjadj⟩
        · rw [hcame, Function.update_noteq hieq, hj]
        · rw [hci]
          have h1 := hcle j
          linarith
    · rcases hbest with hsame | hnext2
      · intro hb
        rw [hsame] at hb
        obtain ⟨h1, h2⟩ := hinv.best_inv hb
        rw [hsame]
        exact ⟨h1, lt_of_le_of_lt (hcle _) h2⟩
      · intro hb2
        rw [hnext2, Int.toNat_natCast]
        refine ⟨hnlt, ?_⟩
        rw [hcost, Function.update_same, hnew]
        exact_mod_cast hgclt

end Voidwind

namespace Voidwind

theorem relax_one_closedAt {size : ℕ} (goal : Cell) (curIdx : ℕ) (cur : Cell)
    (st : SolveState) (o : ℤ × ℤ) (i : ℕ) (hC : ClosedAt size st i) :
    ClosedAt size (relax_one size (fun _ => false) (fun _ => 0) goal curIdx cur st o) i := by
  have hspec := relax_one_spec size goal curIdx cur st o
  have hcle := relax_one_cost_le size goal curIdx cur st o
  set st' := relax_one size (fun _ => false) (fun _ => 0) goal curIdx cur st o with hdef
  rcases hspec with ⟨heq, -⟩ |
    ⟨nextIdx, hm, hlt, hopen, hcame, hcost, -⟩
  · rw [heq]; exact hC
  · intro hi hfin
    by_cases hieq : i = nextIdx
    · subst hieq
      left
      refine ⟨((cur.1 + o.1, cur.2 + o.2),
        ⟨st.cost curIdx + 1, heur_sq (cur.1 + o.1, cur.2 + o.2) goal⟩), ?_, hm, ?_⟩
      · rw [hopen]; exact List.mem_cons_self _ _
      · rw [hcost, Function.update_same]
    · have hci : st'.cost i = st.cost i := by
        rw [hcost, Function.update_noteq hieq]
      rw [hci] at hfin
      rcases hC hi hfin with ⟨e, he, hej, heg⟩ | hnbr
      · left
        refine ⟨e, ?_, hej, ?_⟩
        · rw [hopen]; exact List.mem_cons_of_mem _ he
        · rw [hci]; exact heg
      · right
        intro q j hq hj
        rw [hci]
        exact le_trans (hcle j) (hnbr q j hq hj)

theorem foldl_relax_cost_le (size : ℕ) (goal : Cell) (curIdx : ℕ) (cur : Cell) :
    ∀ (l : List (ℤ × ℤ)) (st : SolveState) (i : ℕ),
      (l.foldl (relax_one size (fun _ => false) (fun _ => 0) goal curIdx cur) st).cost i ≤
        st.cost i := by
  intro l
  induction l with
  | nil => intro st i; exact le_refl _
  | cons o os ih =>
      intro st i
      exact le_trans (ih _ i) (relax_one_cost_le size goal curIdx cur st o i)

theorem foldl_relax_cost_cur (size : ℕ) (goal : Cell) (curIdx : ℕ) (cur : Cell)
    (hcur : map_to_idx size cur = some curIdx) :
    ∀ (l : List (ℤ × ℤ)), (∀ x ∈ l, x ∈ neighbor_offsets) → ∀ (st : SolveState),
      (l.foldl (relax_one size (fun _ => false) (fun _ => 0) goal curIdx cur) st).cost curIdx =
        st.cost curIdx := by
  intro l
  induction l with
  | nil => intro _ st; rfl
  | cons o os ih =>
      intro hsub st
      rw [List.foldl_cons, ih (fun x hx => hsub x (List.mem_cons_of_mem _ hx)),
        relax_one_cost_cur size goal curIdx cur st o hcur (hsub o (List.mem_cons_self o os))]

theorem foldl_relax_all (size : ℕ) (goal : Cell) (curIdx : ℕ) (cur : Cell)
    (hcur : map_to_idx size cur = some curIdx) :
    ∀ (l : List (ℤ × ℤ)), (∀ x ∈ l, x ∈ neighbor_offsets) →
      ∀ (st : SolveState) (o : ℤ × ℤ), o ∈ l → ∀ j,
        map_to_idx size (cur.1 + o.1, cur.2 + o.2) = some j →
        (l.foldl (relax_one size (fun _ => false) (fun _ => 0) goal curIdx cur) st).cost j ≤
          st.cost curIdx + 1 := by
  intro l
  induction l with
  | nil => intro _ st o ho; exact absurd ho (List.not_mem_nil o)
  | cons o1 os ih =>
      intro hsub st o ho j hj
      rcases List.mem_cons.mp ho with rfl | ho2
      · have h1 : (relax_one size (fun _ => false) (fun _ => 0) goal curIdx cur st o).cost j ≤
            st.cost curIdx + 1 := by
          rcases relax_one_spec size goal curIdx cur st o with ⟨heq, hle⟩ |
            ⟨nI, hm, hlt, -, -, hcost, -⟩
          · rw [heq]; exact hle j hj
          · have hnj : nI = j := by
              rw [hm] at hj
              exact Option.some_inj.mp hj
            subst hnj
            rw [hcost, Function.update_same]
        rw [List.foldl_cons]
        exact le_trans (foldl_relax_cost_le size goal curIdx cur os _ j) h1
      · rw [List.foldl_cons]
        have h2 := ih (fun x hx => hsub x (List.mem_cons_of_mem _ hx))
          (relax_one size (fun _ => false) (fun _ => 0) goal curIdx cur st o1) o ho2 j hj
        rw [relax_one_cost_cur size goal curIdx cur st o1 hcur
          (hsub o1 (List.mem_cons_self o1 os))] at h2
        exact h2

theorem expand_core {size : ℕ} {start goal : Cell} {fromIdx toIdx : ℕ}
    {curIdx : ℕ} {cur : Cell} {st : SolveState}
    (hinv : C5Core size start goal fromIdx toIdx st)
    (hto : map_to_idx size goal = some toIdx)
    (hcur : map_to_idx size cur = some curIdx) :
    C5Core size start goal fromIdx toIdx
      (expand size (fun _ => false) (fun _ => 0) goal curIdx cur st) := by
  unfold expand
  have hgen : ∀ (l : List (ℤ × ℤ)), (∀ x ∈ l, x ∈ neighbor_offsets) →
      ∀ st, C5Core size start goal fromIdx toIdx st →
      C5Core size start goal fromIdx toIdx
        (l.foldl (relax_one size (fun _ => false) (fun _ => 0) goal curIdx cur) st) := by
    intro l
    induction l with
    | nil => intro _ st h; exact h
    | cons o os ih =>
        intro hsub st h
        exact ih (fun x hx => hsub x (List.mem_cons_of_mem _ hx)) _
          (relax_one_core h hto hcur (hsub o (List.mem_cons_self o os)))
  exact hgen neighbor_offsets (fun o ho => ho) st hinv

theorem expand_closedAt {size : ℕ} (goal : Cell) (curIdx : ℕ) (cur : Cell)
    (st : SolveState) (i : ℕ) (hC : ClosedAt size st i) :
    ClosedAt size (expand size (fun _ => false) (fun _ => 0) goal curIdx cur st) i := by
  unfold expand
  have hgen : ∀ (l : List (ℤ × ℤ)) (st : SolveState), ClosedAt size st i →
      ClosedAt size
        (l.foldl (relax_one size (fun _ => false) (fun _ => 0) goal curIdx cur) st) i := by
    intro l
    induction l with
    | nil => intro st h; exact h
    | cons o os ih =>
        intro st h
        exact ih _ (relax_one_closedAt goal curIdx cur st o i h)
  exact hgen neighbor_offsets st hC

end Voidwind

namespace Voidwind

/-- One full loop iteration (pop + expand) preserves the invariant, provided
the popped cell is not the goal. -/
theorem step_c5 {size : ℕ} {start goal : Cell} {fromIdx toIdx : ℕ}
    {st : SolveState} {x : Cell × Score} {xs : List (Cell × Score)} {curIdx : ℕ}
    (hinv : C5Inv size start goal fromIdx toIdx st)
    (hto : map_to_idx size goal = some toIdx)
    (hxs : st.open_set = x :: xs)
    (hm : map_to_idx size (selectMin x xs).1.1 = some curIdx)
    (hnt : curIdx ≠ toIdx) :
    C5Inv size start goal fromIdx toIdx
      (expand size (fun _ => false) (fun _ => 0) goal curIdx (selectMin x xs).1.1
        { st with open_set := (selectMin x xs).2 }) := by
  have hcore1 : C5Core size start goal fromIdx toIdx
      { st with open_set := (selectMin x xs).2 } := by
    refine ⟨hinv.cost_from, hinv.from_parent, hinv.cost_nat, ?_, ?_,
      hinv.parent_inv, hinv.best_inv⟩
    · intro e he
      exact hinv.open_entries e (by rw [hxs]; exact selectMin_rest_subset x xs e he)
    · rcases hinv.goal_entry with h | ⟨e, he, hg⟩
      · exact Or.inl h
      · right
        rw [hxs] at he
        have he2 : e ∈ (selectMin x xs).1 :: (selectMin x xs).2 :=
          (selectMin_perm xs x).mem_iff.mpr he
        rcases List.mem_cons.mp he2 with heq | htail
        · exfalso
          apply hnt
          have hmi : map_to_idx size e.1 = some curIdx := by rw [heq]; exact hm
          rw [hg, hto] at hmi
          exact (Option.some_inj.mp hmi).symm
        · exact ⟨e, htail, hg⟩
  have hclosed1 : ∀ i, i ≠ curIdx →
      ClosedAt size { st with open_set := (selectMin x xs).2 } i := by
    intro i hic hi hfin
    rcases hinv.closed_inv i hi hfin with ⟨e, he, hej, heg⟩ | hnbr
    · left
      rw [hxs] at he
      have he2 : e ∈ (selectMin x xs).1 :: (selectMin x xs).2 :=
        (selectMin_perm xs x).mem_iff.mpr he
      rcases List.mem_cons.mp he2 with heq | htail
      · exfalso
        apply hic
        have hmi : map_to_idx size e.1 = some curIdx := by rw [heq]; exact hm
        rw [hej] at hmi
        exact Option.some_inj.mp hmi
      · exact ⟨e, htail, hej, heg⟩
    · right
      exact hnbr
  refine ⟨expand_core hcore1 hto hm, ?_⟩
  intro i
  by_cases hic : i = curIdx
  · rw [hic]
    intro hi hfin
    right
    intro q j hq hj
    rw [map_to_idx_roundtrip hm] at hq
    obtain ⟨o, ho, rfl⟩ := adjacent_iff_offset.mp hq
    have h1 := foldl_relax_all size goal curIdx (selectMin x xs).1.1 hm neighbor_offsets
      (fun x hx => hx) { st with open_set := (selectMin x xs).2 } o ho j hj
    have h2 := foldl_relax_cost_cur size goal curIdx (selectMin x xs).1.1 hm neighbor_offsets
      (fun x hx => hx) { st with open_set := (selectMin x xs).2 }
    unfold expand
    rw [h2]
    exact h1
  · exact expand_closedAt goal curIdx (selectMin x xs).1.1 _ i (hclosed1 i hic)

/-- The state `solve` builds before entering the loop satisfies the
invariant. -/
theorem init_c5 {size : ℕ} {start goal : Cell} {fromIdx toIdx : ℕ}
    (hfrom : map_to_idx size start = some fromIdx)
    (hto : map_to_idx size goal = some toIdx)
    (hne : start ≠ goal) :
    C5Inv size start goal fromIdx toIdx
      { open_set := [(start, ⟨0, heur_sq start start⟩)]
        came_from := Function.update (fun _ => -1) fromIdx (fromIdx : ℤ)
        cost := Function.update (fun _ => 1000000) fromIdx 0
        bestSq := heur_sq start goal
        bestIdx := -1 } := by
  have hftne : toIdx ≠ fromIdx := by
    intro h
    apply hne
    have hto2 : map_to_idx size goal = some fromIdx := by rw [hto, h]
    exact (map_to_idx_inj hto2 hfrom).symm
  have hflt : fromIdx < size * size := map_to_idx_lt hfrom
  refine ⟨⟨?_, ?_, ?_, ?_, ?_, ?_, ?_⟩, ?_⟩
  · show Function.update (fun _ => (1000000 : ℚ)) fromIdx 0 fromIdx = 0
    rw [Function.update_same]
  · show Function.update (fun _ => (-1 : ℤ)) fromIdx (fromIdx : ℤ) fromIdx = (fromIdx : ℤ)
    rw [Function.update_same]
  · intro i hi
    show Function.update (fun _ => (1000000 : ℚ)) fromIdx 0 i = 1000000 ∨ _
    by_cases hieq : i = fromIdx
    · subst hieq
      rw [Function.update_same]
      right
      refine ⟨0, by norm_num, ?_, by norm_num⟩
      rw [map_to_idx_roundtrip hfrom, manhattan_eq_zero.mpr rfl]
    · rw [Function.update_noteq hieq]
      exact Or.inl rfl
  · intro e he
    rcases List.mem_cons.mp he with rfl | he2
    · refine ⟨fromIdx, hfrom, ?_, Or.inr ⟨rfl, rfl, heur_sq_self start⟩, 0, rfl, by norm_num⟩
      show Function.update (fun _ => (1000000 : ℚ)) fromIdx 0 fromIdx ≤ 0
      rw [Function.update_same]
    · exact absurd he2 (List.not_mem_nil e)
  · left
    show Function.update (fun _ => (1000000 : ℚ)) fromIdx 0 toIdx = 1000000
    rw [Function.update_noteq hftne]
  · intro i hi hfin hif
    have hfin2 : Function.update (fun _ => (1000000 : ℚ)) fromIdx 0 i < 1000000 := hfin
    rw [Function.update_noteq hif] at hfin2
    exact absurd hfin2 (by norm_num)
  · intro hb
    exact absurd hb (by norm_num)
  · intro i hi hfin
    by_cases hieq : i = fromIdx
    · left
      refine ⟨(start, ⟨0, heur_sq start start⟩), List.mem_cons_self _ _, ?_, ?_⟩
      · rw [hieq]; exact hfrom
      · show (0 : ℚ) = Function.update (fun _ => (1000000 : ℚ)) fromIdx 0 i
        rw [hieq, Function.update_same]
    · have hfin2 : Function.update (fun _ => (1000000 : ℚ)) fromIdx 0 i < 1000000 := hfin
      rw [Function.update_noteq hieq] at hfin2
      exact absurd hfin2 (by norm_num)

end Voidwind

namespace Voidwind

/-- Frontier dichotomy: walking the straight Manhattan path, either the cell
`k` steps in already has cost at most `k`, or some open entry has f-score at
most `Manhattan(start, goal)`. -/
theorem cost_chain {size : ℕ} {start goal : Cell} {fromIdx toIdx : ℕ} {st : SolveState}
    (hinv : C5Inv size start goal fromIdx toIdx st)
    (hfrom : map_to_idx size start = some fromIdx)
    (hto : map_to_idx size goal = some toIdx)
    (hM : manhattan start goal < 1000000) :
    ∀ k, k ≤ manhattan start goal →
      (∃ jk, map_to_idx size (lpath start goal k) = some jk ∧ st.cost jk ≤ (k : ℚ)) ∨
      (∃ e ∈ st.open_set, e.2.val ≤ (manhattan start goal : ℝ)) := by
  intro k
  induction k with
  | zero =>
      intro hk
      left
      refine ⟨fromIdx, ?_, ?_⟩
      · rw [lpath_zero]; exact hfrom
      · rw [hinv.cost_from]; norm_num
  | succ k ih =>
      intro hk
      rcases ih (Nat.le_of_succ_le hk) with ⟨jk, hjk, hc⟩ | hr
      · have hklt : k < manhattan start goal := hk
        have hjlt : jk < size * size := map_to_idx_lt hjk
        have hkq : (k : ℚ) < 1000000 := by
          have h2 : k < 1000000 := lt_trans hklt hM
          exact_mod_cast h2
        have hfin : st.cost jk < 1000000 := lt_of_le_of_lt hc hkq
        rcases hinv.closed_inv jk hjlt hfin with ⟨e, he, hej, heg⟩ | hnbr
        · right
          refine ⟨e, he, ?_⟩
          obtain ⟨j2, hj2, hcj2, hsqd, -⟩ := hinv.open_entries e he
          have he1 : e.1 = lpath start goal k := map_to_idx_inj hej hjk
          rcases hsqd with hsq1 | ⟨hstart, hg0, hsq0⟩
          · unfold Score.val
            rw [heg, hsq1, he1]
            have hs := sqrt_heur_sq_le_manhattan (lpath start goal k) goal
            rw [lpath_manhattan_to start goal k (le_of_lt hklt)] at hs
            have hcr : ((st.cost jk : ℚ) : ℝ) ≤ (k : ℝ) := by exact_mod_cast hc
            have hsub : ((manhattan start goal - k : ℕ) : ℝ) =
                (manhattan start goal : ℝ) - (k : ℝ) := by
              rw [Nat.cast_sub (le_of_lt hklt)]
            rw [hsub] at hs
            linarith
          · unfold Score.val
            rw [hg0, hsq0]
            norm_num [Real.sqrt_zero]
        · left
          obtain ⟨jk1, hjk1⟩ := lpath_in_bounds (k + 1) hk hfrom hto
          refine ⟨jk1, hjk1, ?_⟩
          have hadj : adjacent (idx_to_map size jk) (lpath start goal (k + 1)) := by
            rw [map_to_idx_roundtrip hjk]
            exact lpath_step start goal k hklt
          have hstep := hnbr _ jk1 hadj hjk1
          calc st.cost jk1 ≤ st.cost jk + 1 := hstep
            _ ≤ (k : ℚ) + 1 := by linarith
            _ = ((k + 1 : ℕ) : ℚ) := by push_cast; ring
      · exact Or.inr hr

end Voidwind

namespace Voidwind

/-- A chain of 4-adjacent cells from `a` to `b` takes at least
`Manhattan(a, b)` steps. -/
theorem chain_manhattan_le : ∀ (t : List Cell) (a b : Cell),
    List.Chain' adjacent (a :: t) → (a :: t).getLast? = some b →
    manhattan a b ≤ t.length := by
  intro t
  induction t with
  | nil =>
      intro a b hc hl
      rw [List.getLast?_singleton, Option.some_inj] at hl
      rw [← hl, manhattan_eq_zero.mpr rfl]
      exact Nat.zero_le _
  | cons c t ih =>
      intro a b hc hl
      rw [List.chain'_cons] at hc
      rw [List.getLast?_cons_cons] at hl
      have h2 := ih c b hc.2 hl
      have htri := manhattan_triangle a c b
      have hac : manhattan a c = 1 := hc.1
      simp only [List.length_cons]
      omega

/-- What a completed reconstruction yields: the parent chain appended to
`path`, of length at most `cost i`, ending at `start`, consecutive cells
adjacent. -/
theorem reconstruct_spec {size : ℕ} {start goal : Cell} {fromIdx toIdx : ℕ}
    {st : SolveState}
    (hinv : C5Core size start goal fromIdx toIdx st)
    (hfrom : map_to_idx size start = some fromIdx) :
    ∀ (fuel : ℕ) (i : ℕ) (path p : List Cell) (g : ℕ),
      i < size * size → i ≠ fromIdx → st.cost i = (g : ℚ) → g < 1000000 →
      reconstruct size st.came_from fromIdx fuel i path = some p →
      ∃ t, p = path ++ t ∧ t.length ≤ g ∧ t.getLast? = some start ∧
        List.Chain' adjacent (idx_to_map size i :: t) := by
  intro fuel
  induction fuel with
  | zero =>
      intro i path p g _ _ _ _ h
      exact absurd h (by simp [reconstruct])
  | succ fuel ih =>
      intro i path p g hi hif hg hglt h
      have hfin : st.cost i < 1000000 := by
        rw [hg]; exact_mod_cast hglt
      obtain ⟨j, hj, hjlt, hjc, hjadj⟩ := hinv.parent_inv i hi hfin hif
      simp only [reconstruct] at h
      rw [hj, if_neg (not_lt.mpr (Int.natCast_nonneg j)), Int.toNat_natCast] at h
      by_cases hjf : j = fromIdx
      · rw [if_pos hjf] at h
        rw [Option.some_inj] at h
        refine ⟨[idx_to_map size j], h.symm, ?_, ?_, ?_⟩
        · have hc0 := hinv.cost_from
          rw [hjf, hc0] at hjc
          rw [hg] at hjc
          have h1 : (1 : ℚ) ≤ (g : ℚ) := by linarith
          have h2 : 1 ≤ g := by exact_mod_cast h1
          simpa using h2
        · rw [hjf, map_to_idx_roundtrip hfrom, List.getLast?_singleton]
        · rw [List.chain'_cons]
          exact ⟨adjacent_symm hjadj, List.chain'_singleton _⟩
      · rw [if_neg hjf] at h
        have hjfin : st.cost j < 1000000 := by
          have hq : (g : ℚ) < 1000000 := by exact_mod_cast hglt
          rw [hg] at hjc
          linarith
        rcases hinv.cost_nat j hjlt with h6 | ⟨gj, hgj, -, -⟩
        · rw [h6] at hjfin
          exact absurd hjfin (by norm_num)
        · have hgj1 : gj + 1 ≤ g := by
            rw [hgj, hg] at hjc
            have hq : (gj : ℚ) + 1 ≤ (g : ℚ) := hjc
            have hq2 : ((gj + 1 : ℕ) : ℚ) ≤ (g : ℚ) := by push_cast; linarith
            exact_mod_cast hq2
          obtain ⟨t2, ht2, hlen, hlast, hchain⟩ :=
            ih j (path ++ [idx_to_map size j]) p gj hjlt hjf hgj (by omega) h
          refine ⟨idx_to_map size j :: t2, ?_, ?_, ?_, ?_⟩
          · rw [ht2, List.append_assoc]
            rfl
          · simp only [List.length_cons]
            omega
          · cases t2 with
            | nil => exact absurd hlast (by simp)
            | cons c cs =>
                rw [List.getLast?_cons_cons]
                exact hlast
          · rw [List.chain'_cons]
            exact ⟨adjacent_symm hjadj, hchain⟩

end Voidwind

namespace Voidwind

/-- The main loop, run from any state satisfying the invariant, can only
complete with the reversed shortest path. -/
theorem solve_loop_c5 {size : ℕ} {start goal : Cell} {fromIdx toIdx : ℕ}
    (hfrom : map_to_idx size start = some fromIdx)
    (hto : map_to_idx size goal = some toIdx)
    (hne : start ≠ goal)
    (hM : manhattan start goal < 1000000) :
    ∀ (fuel : ℕ) (st : SolveState) (p : List Cell),
      C5Inv size start goal fromIdx toIdx st →
      solve_loop size (fun _ => false) (fun _ => 0) fromIdx toIdx goal fuel st = some p →
      p.head? = some goal ∧ p.getLast? = some start ∧
        p.length = manhattan start goal + 1 ∧ List.Chain' adjacent p := by
  intro fuel
  induction fuel with
  | zero =>
      intro st p _ h
      exact absurd h (by simp [solve_loop])
  | succ fuel ih =>
      intro st p hinv h
      have hMq : (manhattan start goal : ℚ) < 1000000 := by exact_mod_cast hM
      simp only [solve_loop] at h
      split at h
      · exfalso
        rename_i hempty
        rcases cost_chain hinv hfrom hto hM (manhattan start goal) (le_refl _) with
          ⟨jk, hjk, hc⟩ | ⟨e, he, -⟩
        · rw [lpath_last, hto] at hjk
          obtain rfl : toIdx = jk := Option.some_inj.mp hjk
          rcases hinv.goal_entry with hcost6 | ⟨e, he, -⟩
          · rw [hcost6] at hc
            linarith
          · rw [hempty] at he
            exact absurd he (List.not_mem_nil e)
        · rw [hempty] at he
          exact absurd he (List.not_mem_nil e)
      · rename_i x xs hxs
        split at h
        · exact absurd h (by simp)
        · rename_i hmopt curIdx hm
          split at h
          · rename_i heq
            subst heq
            have hsel : (selectMin x xs).1 ∈ st.open_set := by
              rw [hxs]
              exact selectMin_mem x xs
            obtain ⟨j2, hj2, hcj2, hsqd, -⟩ := hinv.open_entries _ hsel
            have hcellgoal : (selectMin x xs).1.1 = goal := map_to_idx_inj hm hto
            have hj2c : j2 = curIdx := by
              rw [hm] at hj2
              exact (Option.some_inj.mp hj2).symm
            have hub : st.cost curIdx ≤ (manhattan start goal : ℚ) := by
              rcases cost_chain hinv hfrom hto hM (manhattan start goal) (le_refl _) with
                ⟨jk, hjk, hc⟩ | ⟨e, he, hev⟩
              · rw [lpath_last, hto] at hjk
                obtain rfl : curIdx = jk := Option.some_inj.mp hjk
                exact hc
              · have hminle := selectMin_val_le xs x e (by rw [← hxs]; exact he)
                have hsq0 : (selectMin x xs).1.2.hsq = 0 := by
                  rcases hsqd with h1 | ⟨h2, -, -⟩
                  · rw [h1, hcellgoal, heur_sq_self]
                  · exact absurd (by rw [← h2, hcellgoal]) hne
                have hval : (selectMin x xs).1.2.val =
                    (((selectMin x xs).1.2.g : ℚ) : ℝ) := by
                  unfold Score.val
                  rw [hsq0]
                  norm_num
                have h5 : (((selectMin x xs).1.2.g : ℚ) : ℝ) ≤
                    (manhattan start goal : ℝ) := by
                  rw [← hval]
                  exact le_trans hminle hev
                have h6 : ((selectMin x xs).1.2.g : ℚ) ≤ (manhattan start goal : ℚ) := by
                  exact_mod_cast h5
                rw [← hj2c]
                exact le_trans hcj2 h6
            have htolt : curIdx < size * size := map_to_idx_lt hto
            have hfin : st.cost curIdx < 1000000 := lt_of_le_of_lt hub hMq
            rcases hinv.cost_nat curIdx htolt with h6 | ⟨gt, hgt, hman, -⟩
            · rw [h6] at hfin
              exact absurd hfin (by norm_num)
            · rw [map_to_idx_roundtrip hto] at hman
              have hgle : gt ≤ manhattan start goal := by
                rw [hgt] at hub
                exact_mod_cast hub
              have hgeq : gt = manhattan start goal := le_antisymm hgle hman
              have htfne : curIdx ≠ fromIdx := by
                intro hh
                apply hne
                have hto2 : map_to_idx size goal = some fromIdx := by rw [hto, hh]
                exact map_to_idx_inj hfrom hto2
              obtain ⟨t, htp, hlen, hlast, hchain⟩ :=
                reconstruct_spec hinv.toC5Core hfrom (size * size + 2) curIdx [goal] p gt
                  htolt htfne hgt (by omega) h
              rw [map_to_idx_roundtrip hto] at hchain
              have htne : t ≠ [] := by
                intro hnil
                rw [hnil] at hlast
                exact absurd hlast (by simp)
              have hgl : (goal :: t).getLast? = some start := by
                cases t with
                | nil => exact absurd rfl htne
                | cons c cs =>
                    rw [List.getLast?_cons_cons]
                    exact hlast
              have hlb := chain_manhattan_le t goal start hchain hgl
              rw [manhattan_comm goal start] at hlb
              have hteq : t.length = manhattan start goal := by omega
              have hp : p = goal :: t := by
                rw [htp]
                rfl
              subst hp
              refine ⟨rfl, hgl, ?_, hchain⟩
              simp only [List.length_cons]
              omega
          · rename_i hne2
            exact ih _ p (step_c5 hinv hto hxs hm hne2) h

end Voidwind

namespace Voidwind

/-- When the goal lies at Manhattan distance at least the `1e6` cost
sentinel, no completed run of the loop can return a path starting at the
goal: the goal cell can never be relaxed below the sentinel, so it is never
popped, and the best-effort cell always has a finite cost, hence is not the
goal. -/
theorem solve_loop_far {size : ℕ} {start goal : Cell} {fromIdx toIdx : ℕ}
    (hto : map_to_idx size goal = some toIdx)
    (hMbig : 1000000 ≤ manhattan start goal) :
    ∀ (fuel : ℕ) (st : SolveState) (p : List Cell),
      C5Inv size start goal fromIdx toIdx st →
      solve_loop size (fun _ => false) (fun _ => 0) fromIdx toIdx goal fuel st = some p →
      p.head? ≠ some goal := by
  intro fuel
  induction fuel with
  | zero =>
      intro st p _ h
      exact absurd h (by simp [solve_loop])
  | succ fuel ih =>
      intro st p hinv h
      simp only [solve_loop] at h
      split at h
      · split at h
        · rename_i hbest
          obtain ⟨t, ht⟩ := reconstruct_prefix _ _ _ _ h
          obtain ⟨hblt, hbfin⟩ := hinv.best_inv hbest
          have hcell : idx_to_map size st.bestIdx.toNat ≠ goal := by
            intro hcg
            rcases hinv.cost_nat _ hblt with h6 | ⟨g, hg, hman, hglt⟩
            · rw [h6] at hbfin
              exact absurd hbfin (by norm_num)
            · rw [hcg] at hman
              omega
          rw [ht]
          simp only [List.singleton_append, List.head?_cons]
          intro hc
          exact hcell (Option.some_inj.mp hc)
        · rw [Option.some_inj] at h
          rw [← h]
          simp
      · rename_i x xs hxs
        split at h
        · exact absurd h (by simp)
        · rename_i hmopt curIdx hm
          split at h
          · rename_i heq
            exfalso
            subst heq
            have hsel : (selectMin x xs).1 ∈ st.open_set := by
              rw [hxs]
              exact selectMin_mem x xs
            obtain ⟨j2, hj2, hcj2, -, ge, hge, hgelt⟩ := hinv.open_entries _ hsel
            have hj2c : j2 = curIdx := by
              rw [hm] at hj2
              exact (Option.some_inj.mp hj2).symm
            have htolt : curIdx < size * size := map_to_idx_lt hto
            have hfin : st.cost curIdx < 1000000 := by
              rw [hj2c] at hcj2
              rw [hge] at hcj2
              have hq : (ge : ℚ) < 1000000 := by exact_mod_cast hgelt
              linarith
            rcases hinv.cost_nat curIdx htolt with h6 | ⟨g, hg, hman, hglt⟩
            · rw [h6] at hfin
              exact absurd hfin (by norm_num)
            · rw [map_to_idx_roundtrip hto] at hman
              omega
          · rename_i hne2
            exact ih _ p (step_c5 hinv hto hxs hm hne2) h

/-- Entry point for the far-goal argument: from a fresh `solve` call. -/
theorem solve_far_head {size : ℕ} {start goal : Cell} (fuel : ℕ) (p : List Cell)
    (hMbig : 1000000 ≤ manhattan start goal) (hne : start ≠ goal)
    (h : solve size start goal (fun _ => false) (fun _ => 0) fuel = some p) :
    p.head? ≠ some goal := by
  unfold solve at h
  split at h
  · rename_i fromIdx toIdx hfrom hto
    exact solve_loop_far hto hMbig fuel _ p (init_c5 hfrom hto hne) h
  · exact absurd h (by simp)

end Voidwind

/-- C5 counterexample: on the obstacle-free 500002×500002 grid with
`from = (0,0)` and `to = (500001, 500001)` (both in bounds, Manhattan
distance 1000002), no completing `solve` call ever returns a path whose
first element is `to` — the `1e6` cost sentinel that stands for "unvisited"
caps every reachable cost below 1000000, so the goal can never be relaxed or
popped, and the claimed reversed path (head `to`, last `from`, length
Manhattan+1) is never produced. -/
theorem c5_counterexample :
    ¬ ∃ (fuel : ℕ) (p : List Voidwind.Cell),
      Voidwind.solve 500002 (0, 0) (500001, 500001) (fun _ => false) (fun _ => 0) fuel =
        some p ∧ p.head? = some (500001, 500001) := by
  rintro ⟨fuel, p, h, hhead⟩
  exact Voidwind.solve_far_head fuel p (by decide) (by decide) h hhead

/-- C5 (amended): on an obstacle-free grid with zero extra cost, for
in-bounds `from ≠ to` with `Manhattan(from, to) < 1000000` (the `1e6`
"unvisited" cost sentinel), every completing `solve` call returns the
path in reverse order: first element `to`, last element `from`, consecutive
cells 4-adjacent, and length `Manhattan(from, to) + 1`.  The spec's claim
fails without the Manhattan bound, since costs are capped by the sentinel. -/
theorem c5_solve_shortest_path_amended (size : ℕ) (start goal : Voidwind.Cell)
    (fuel : ℕ) (p : List Voidwind.Cell)
    (hne : start ≠ goal)
    (hM : Voidwind.manhattan start goal < 1000000)
    (h : Voidwind.solve size start goal (fun _ => false) (fun _ => 0) fuel = some p) :
    p.head? = some goal ∧ p.getLast? = some start ∧
      p.length = Voidwind.manhattan start goal + 1 ∧ List.Chain' Voidwind.adjacent p := by
  unfold Voidwind.solve at h
  split at h
  · rename_i fromIdx toIdx hfrom hto
    exact Voidwind.solve_loop_c5 hfrom hto hne hM fuel _ p
      (Voidwind.init_c5 hfrom hto hne) h
  · exact absurd h (by simp)

set_option maxHeartbeats 16000000 in
/-- C5 witness: the amended theorem applied to the obstacle-free 2×2 grid
from `(0,0)` to `(1,1)`: `solve` returns `[(1,1), (0,1), (0,0)]`, which is
reversed, 4-connected, and of length `Manhattan((0,0),(1,1)) + 1 = 3`. -/
theorem c5_solve_shortest_path_witness :
    Voidwind.solve 2 (0, 0) (1, 1) (fun _ => false) (fun _ => 0) 4 =
      some [(1, 1), (0, 1), (0, 0)] ∧
    ([(1, 1), (0, 1), (0, 0)] : List Voidwind.Cell).head? = some (1, 1) ∧
    ([(1, 1), (0, 1), (0, 0)] : List Voidwind.Cell).getLast? = some (0, 0) ∧
    ([(1, 1), (0, 1), (0, 0)] : List Voidwind.Cell).length =
      Voidwind.manhattan (0, 0) (1, 1) + 1 ∧
    List.Chain' Voidwind.adjacent [(1, 1), (0, 1), (0, 0)] := by
  have hev : Voidwind.solve 2 (0, 0) (1, 1) (fun _ => false) (fun _ => 0) 4 =
      some [(1, 1), (0, 1), (0, 0)] := by
    norm_num [Voidwind.solve, Voidwind.solve_loop, Voidwind.map_to_idx, Voidwind.selectMin,
      Voidwind.expand, Voidwind.relax_one, Voidwind.neighbor_offsets, Voidwind.reconstruct,
      Voidwind.idx_to_map, Voidwind.heur_sq, Function.update, Int.toNat, Voidwind.Score.blt,
      -Prod.mk_one_one, -Prod.mk_zero_zero, Prod.ext_iff]
  obtain ⟨h1, h2, h3, h4⟩ :=
    c5_solve_shortest_path_amended 2 (0, 0) (1, 1) 4 _ (by decide) (by decide) hev
  exact ⟨hev, h1, h2, h3, h4⟩
